import Mathlib

/-!
Verification development for the AST visitor engine (src/language/visitor.js),
the parallel-visitor combinator (visitInParallel), the value-to-literal
encoder (src/utilities/valueToLiteral.js) and the memoized default-value
getter (getLiteralDefaultValue).

JavaScript values reachable by the traversal are modelled by the inductive
type `Js`; handlers are state-threading functions (JS closures may carry
mutable state); the iterative stack machine of `visit` is rendered as the
equivalent recursion on an explicit fuel bound, with the per-frame edits
lists, the BREAK short-circuit carrying the edits list that is current when
the loop breaks, and the final new-root extraction translated one branch at
a time from the source.  The machine is instrumented with a clone counter
(one shallow copy per edited node or array, exactly at the source's single
clone site) and a call trace recording each handler invocation and result.
-/

namespace GQL

/-- A key into a parent: a named field of a node, or an index of an array. -/
abbrev Key := Sum String Nat

/-- JavaScript values that can appear at traversal positions or be returned
by handlers: null, undefined, booleans, strings, AST nodes (a kind tag plus
named fields) and arrays. -/
inductive Js where
  | null : Js
  | undef : Js
  | bool : Bool → Js
  | str : String → Js
  | node : String → List (String × Js) → Js
  | arr : List Js → Js

mutual

/-- Structural equality test on Js values. -/
def jsBeq : Js → Js → Bool
  | Js.null, Js.null => true
  | Js.undef, Js.undef => true
  | Js.bool a, Js.bool b => a == b
  | Js.str a, Js.str b => a == b
  | Js.node k1 f1, Js.node k2 f2 => k1 == k2 && jsFieldsBeq f1 f2
  | Js.arr a, Js.arr b => jsListBeq a b
  | _, _ => false

/-- Structural equality test on Js lists. -/
def jsListBeq : List Js → List Js → Bool
  | [], [] => true
  | a :: l1, b :: l2 => jsBeq a b && jsListBeq l1 l2
  | _, _ => false

/-- Structural equality test on field lists. -/
def jsFieldsBeq : List (String × Js) → List (String × Js) → Bool
  | [], [] => true
  | (n, v) :: f1, (m, w) :: f2 => n == m && jsBeq v w && jsFieldsBeq f1 f2
  | _, _ => false

end

mutual

theorem jsBeq_iff : ∀ a b : Js, jsBeq a b = true ↔ a = b
  | Js.null, b => by cases b <;> simp [jsBeq]
  | Js.undef, b => by cases b <;> simp [jsBeq]
  | Js.bool a, b => by cases b <;> simp [jsBeq]
  | Js.str a, b => by cases b <;> simp [jsBeq]
  | Js.node k1 f1, b => by
    cases b with
    | node k2 f2 => simp [jsBeq, jsFieldsBeq_iff f1 f2]
    | null => simp [jsBeq]
    | undef => simp [jsBeq]
    | bool b => simp [jsBeq]
    | str s => simp [jsBeq]
    | arr l => simp [jsBeq]
  | Js.arr a, b => by
    cases b with
    | arr l => simp [jsBeq, jsListBeq_iff a l]
    | null => simp [jsBeq]
    | undef => simp [jsBeq]
    | bool b => simp [jsBeq]
    | str s => simp [jsBeq]
    | node k f => simp [jsBeq]

theorem jsListBeq_iff : ∀ a b : List Js, jsListBeq a b = true ↔ a = b
  | [], b => by cases b <;> simp [jsListBeq]
  | x :: l1, b => by
    cases b with
    | nil => simp [jsListBeq]
    | cons y l2 => simp [jsListBeq, jsBeq_iff x y, jsListBeq_iff l1 l2]

theorem jsFieldsBeq_iff : ∀ a b : List (String × Js), jsFieldsBeq a b = true ↔ a = b
  | [], b => by cases b <;> simp [jsFieldsBeq]
  | (n, v) :: f1, b => by
    cases b with
    | nil => simp [jsFieldsBeq]
    | cons p f2 =>
      obtain ⟨m, w⟩ := p
      simp [jsFieldsBeq, jsBeq_iff v w, jsFieldsBeq_iff f1 f2, and_assoc]

end

instance : DecidableEq Js := fun a b =>
  decidable_of_iff (jsBeq a b = true) (jsBeq_iff a b)

/-- Result of a handler call: `undef` is a JS function returning undefined,
`brk` is the unique BREAK sentinel (distinguishable by identity from every
JS value), and `val v` is any other returned value (including null and
false, which the engine tests for specially). -/
inductive HResult where
  | undef : HResult
  | brk : HResult
  | val : Js → HResult
deriving DecidableEq

/-- A visit function receives (node, key, parent, path, ancestors) and an
explicit closure state, returning its result and the updated state. -/
abbrev Handler (σ : Type) :=
  σ → Js → Option Key → Option Js → List Key → List Js → HResult × σ

/-- A kind-keyed entry of a visitor: either a bare function (an enter-only
handler) or an object with optional enter/leave members. -/
inductive KindVisitor (σ : Type) where
  | fn : Handler σ → KindVisitor σ
  | obj : Option (Handler σ) → Option (Handler σ) → KindVisitor σ

/-- A visitor: kind-keyed entries plus optional generic enter/leave. -/
structure Visitor (σ : Type) where
  byKind : String → Option (KindVisitor σ)
  enterFn : Option (Handler σ)
  leaveFn : Option (Handler σ)

/-- Translation of getVisitFn: a kind-specific entry is used exclusively of
the generic handlers; a bare kind-keyed function acts as enter only. -/
def getVisitFn {σ : Type} (visitor : Visitor σ) (kind : String) (isLeaving : Bool) :
    Option (Handler σ) :=
  match visitor.byKind kind with
  | some (KindVisitor.fn h) => if isLeaving then none else some h
  | some (KindVisitor.obj e l) => if isLeaving then l else e
  | none => if isLeaving then visitor.leaveFn else visitor.enterFn

/-- The fixed per-kind child-field table (QueryDocumentKeys), reproduced
verbatim; an unknown kind has no visitable children (the source's `?? []`). -/
def QueryDocumentKeys : String → List String
  | "Name" => []
  | "Document" => ["definitions"]
  | "OperationDefinition" => ["name", "variableDefinitions", "directives", "selectionSet"]
  | "VariableDefinition" => ["variable", "type", "defaultValue", "directives"]
  | "Variable" => ["name"]
  | "SelectionSet" => ["selections"]
  | "Field" => ["alias", "name", "arguments", "directives", "selectionSet"]
  | "Argument" => ["name", "value"]
  | "FragmentSpread" => ["name", "directives"]
  | "InlineFragment" => ["typeCondition", "directives", "selectionSet"]
  | "FragmentDefinition" =>
      ["name", "variableDefinitions", "typeCondition", "directives", "selectionSet"]
  | "IntValue" => []
  | "FloatValue" => []
  | "StringValue" => []
  | "BooleanValue" => []
  | "NullValue" => []
  | "EnumValue" => []
  | "ListValue" => ["values"]
  | "ObjectValue" => ["fields"]
  | "ObjectField" => ["name", "value"]
  | "Directive" => ["name", "arguments"]
  | "NamedType" => ["name"]
  | "ListType" => ["type"]
  | "NonNullType" => ["type"]
  | "SchemaDefinition" => ["description", "directives", "operationTypes"]
  | "OperationTypeDefinition" => ["type"]
  | "ScalarTypeDefinition" => ["description", "name", "directives"]
  | "ObjectTypeDefinition" => ["description", "name", "interfaces", "directives", "fields"]
  | "FieldDefinition" => ["description", "name", "arguments", "type", "directives"]
  | "InputValueDefinition" => ["description", "name", "type", "defaultValue", "directives"]
  | "InterfaceTypeDefinition" => ["description", "name", "interfaces", "directives", "fields"]
  | "UnionTypeDefinition" => ["description", "name", "directives", "types"]
  | "EnumTypeDefinition" => ["description", "name", "directives", "values"]
  | "EnumValueDefinition" => ["description", "name", "directives"]
  | "InputObjectTypeDefinition" => ["description", "name", "directives", "fields"]
  | "DirectiveDefinition" => ["description", "name", "arguments", "locations"]
  | "SchemaExtension" => ["directives", "operationTypes"]
  | "ScalarTypeExtension" => ["name", "directives"]
  | "ObjectTypeExtension" => ["name", "interfaces", "directives", "fields"]
  | "InterfaceTypeExtension" => ["name", "interfaces", "directives", "fields"]
  | "UnionTypeExtension" => ["name", "directives", "types"]
  | "EnumTypeExtension" => ["name", "directives", "values"]
  | "InputObjectTypeExtension" => ["name", "directives", "fields"]
  | _ => []

/-- Property lookup `node[key]` on a field list; a missing field reads as
undefined. -/
def lookupField : List (String × Js) → String → Js
  | [], _ => Js.undef
  | (n, v) :: fs, k => if n = k then v else lookupField fs k

/-- Property assignment `node[key] = value` on a field list. -/
def setField : List (String × Js) → String → Js → List (String × Js)
  | [], k, v => [(k, v)]
  | (n, w) :: fs, k, v => if n = k then (k, v) :: fs else (n, w) :: setField fs k v

/-- A pending edit: the key into the parent being left paired with the
replacement value (null meaning deletion for sequence parents). -/
abbrev Edit := Option Key × Js

/-- One record of the instrumented call trace: the visited kind, whether the
call was a leave call, and the handler's result. -/
abbrev Call := String × Bool × HResult

/-- Index carried by an array edit (array edits are always recorded with an
index key by the machine). -/
def keyToIndex : Option Key → Nat
  | some (Sum.inr i) => i
  | _ => 0

/-- Field name carried by a node edit. -/
def keyToName : Option Key → String
  | some (Sum.inl s) => s
  | some (Sum.inr i) => toString i
  | _ => "undefined"

/-- Edit application to a cloned array (the isEdited branch of the source
for sequence parents): edits apply in order; a null edit splices the slot
out and every prior deletion decrements later target indices via the
running editOffset. -/
def applyEditsArr : List Edit → Nat → List Js → List Js
  | [], _, elems => elems
  | (k, v) :: rest, off, elems =>
    if v = Js.null then applyEditsArr rest (off + 1) (elems.eraseIdx (keyToIndex k - off))
    else applyEditsArr rest off (elems.set (keyToIndex k - off) v)

/-- Edit application to a cloned node: every edit (null included) is a plain
field assignment. -/
def applyEditsNode : List Edit → List (String × Js) → List (String × Js)
  | [], fs => fs
  | (k, v) :: rest, fs => applyEditsNode rest (setField fs (keyToName k) v)

/-- Flow outcome of processing one traversal position: `ok` returns the
updated edits list of the enclosing frame; `broke` aborts the whole
traversal carrying the edits list that is current when the loop breaks;
`err` is the fatal invalid-node failure; `fuelOut` only signals exhaustion
of the artificial fuel bound. -/
inductive Flow where
  | ok : List Edit → Flow
  | broke : List Edit → Flow
  | err : Flow
  | fuelOut : Flow
deriving DecidableEq

/-- Instrumented output of the machine: the flow, the threaded handler
state, the number of shallow clones performed, and the handler call trace. -/
structure VOut (σ : Type) where
  flow : Flow
  state : σ
  clones : Nat
  calls : List Call
deriving DecidableEq

/-- Iterate the visitable field keys of a node frame, threading state and
the frame's accumulating edits through the child visitor; any non-ok flow
from a child aborts the iteration and propagates unchanged. -/
def visitFieldsF {σ : Type} (visitChild : σ → Js → Option Key → List Edit → VOut σ)
    (fs : List (String × Js)) : List String → σ → List Edit → VOut σ
  | [], s, edits => ⟨Flow.ok edits, s, 0, []⟩
  | k :: ks, s, edits =>
    let r := visitChild s (lookupField fs k) (some (Sum.inl k)) edits
    match r.flow with
    | Flow.ok edits1 =>
      let r2 := visitFieldsF visitChild fs ks r.state edits1
      ⟨r2.flow, r2.state, r.clones + r2.clones, r.calls ++ r2.calls⟩
    | _ => r

/-- Iterate the elements of an array frame (index keys), as visitFieldsF. -/
def visitElemsF {σ : Type} (visitChild : σ → Js → Option Key → List Edit → VOut σ) :
    List Js → Nat → σ → List Edit → VOut σ
  | [], _, s, edits => ⟨Flow.ok edits, s, 0, []⟩
  | e :: es, i, s, edits =>
    let r := visitChild s e (some (Sum.inr i)) edits
    match r.flow with
    | Flow.ok edits1 =>
      let r2 := visitElemsF visitChild es (i + 1) r.state edits1
      ⟨r2.flow, r2.state, r.clones + r2.clones, r.calls ++ r2.calls⟩
    | _ => r

/-- Descend into a node's children, then perform the leave step: clone the
node and apply the frame's edits when at least one edit accumulated, call
the leave handler on the (possibly cloned) node, and commit into the parent
frame's edits list according to the leave result.  A BREAK result carries
the parent frame's restored edits list, so the pending commit of this node
is discarded, exactly as in the source. -/
def visitDescend {σ : Type} (vis : Visitor σ)
    (visitChild : σ → Js → Option Key → List Edit → VOut σ)
    (s : σ) (kind2 : String) (fs2 : List (String × Js))
    (key : Option Key) (parent : Option Js) (path1 : List Key)
    (anc : List Js) (edits : List Edit) : VOut σ :=
  let r := visitFieldsF visitChild fs2 (QueryDocumentKeys kind2) s []
  match r.flow with
  | Flow.ok childEdits =>
    match childEdits with
    | [] =>
      match getVisitFn vis kind2 true with
      | none => ⟨Flow.ok edits, r.state, r.clones, r.calls⟩
      | some h2 =>
        let p := h2 r.state (Js.node kind2 fs2) key parent path1 anc
        let cs2 := r.calls ++ [(kind2, true, p.1)]
        match p.1 with
        | HResult.brk => ⟨Flow.broke edits, p.2, r.clones, cs2⟩
        | HResult.undef => ⟨Flow.ok edits, p.2, r.clones, cs2⟩
        | HResult.val (Js.bool false) => ⟨Flow.ok edits, p.2, r.clones, cs2⟩
        | HResult.val v2 => ⟨Flow.ok (edits ++ [(key, v2)]), p.2, r.clones, cs2⟩
    | ce =>
      let node1 := Js.node kind2 (applyEditsNode ce fs2)
      match getVisitFn vis kind2 true with
      | none => ⟨Flow.ok (edits ++ [(key, node1)]), r.state, r.clones + 1, r.calls⟩
      | some h2 =>
        let p := h2 r.state node1 key parent path1 anc
        let cs2 := r.calls ++ [(kind2, true, p.1)]
        match p.1 with
        | HResult.brk => ⟨Flow.broke edits, p.2, r.clones + 1, cs2⟩
        | HResult.undef => ⟨Flow.ok (edits ++ [(key, node1)]), p.2, r.clones + 1, cs2⟩
        | HResult.val (Js.bool false) => ⟨Flow.ok edits, p.2, r.clones + 1, cs2⟩
        | HResult.val v2 => ⟨Flow.ok (edits ++ [(key, v2)]), p.2, r.clones + 1, cs2⟩
  | _ => r

/-- Process one traversal position, translated branch by branch from the
do/while loop of visit: null/undefined children are skipped; arrays descend
without a handler call; an enter handler may abort (BREAK), skip the
subtree (false), record an edit and descend into a replacement node, record
an edit without descent for a non-node replacement, or fall through to the
ordinary descent; non-node non-array values are the fatal invalid-node
failure. -/
def visitPos {σ : Type} : Nat → Visitor σ → σ → Js → Option Key → Option Js →
    List Key → List Js → List Edit → VOut σ
  | 0, _, s, _, _, _, _, _, _ => ⟨Flow.fuelOut, s, 0, []⟩
  | fuel + 1, vis, s, nodeJ, key, parent, path, anc, edits =>
    match nodeJ with
    | Js.null => ⟨Flow.ok edits, s, 0, []⟩
    | Js.undef => ⟨Flow.ok edits, s, 0, []⟩
    | Js.bool _ => ⟨Flow.err, s, 0, []⟩
    | Js.str _ => ⟨Flow.err, s, 0, []⟩
    | Js.arr elems =>
      let path1 := if parent.isSome then path ++ key.toList else path
      let anc1 := anc ++ parent.toList
      let r := visitElemsF
        (fun s1 c ck ed => visitPos fuel vis s1 c ck (some (Js.arr elems)) path1 anc1 ed)
        elems 0 s []
      match r.flow with
      | Flow.ok childEdits =>
        match childEdits with
        | [] => ⟨Flow.ok edits, r.state, r.clones, r.calls⟩
        | ce => ⟨Flow.ok (edits ++ [(key, Js.arr (applyEditsArr ce 0 elems))]),
                 r.state, r.clones + 1, r.calls⟩
      | _ => ⟨r.flow, r.state, r.clones, r.calls⟩
    | Js.node kind fs =>
      let path1 := if parent.isSome then path ++ key.toList else path
      let anc1 := anc ++ parent.toList
      match getVisitFn vis kind false with
      | none =>
        visitDescend vis
          (fun s1 c ck ed => visitPos fuel vis s1 c ck (some (Js.node kind fs)) path1 anc1 ed)
          s kind fs key parent path1 anc edits
      | some h =>
        let p := h s (Js.node kind fs) key parent path1 anc
        match p.1 with
        | HResult.brk => ⟨Flow.broke edits, p.2, 0, [(kind, false, HResult.brk)]⟩
        | HResult.undef =>
          let r := visitDescend vis
            (fun s1 c ck ed => visitPos fuel vis s1 c ck (some (Js.node kind fs)) path1 anc1 ed)
            p.2 kind fs key parent path1 anc edits
          ⟨r.flow, r.state, r.clones, (kind, false, HResult.undef) :: r.calls⟩
        | HResult.val (Js.bool false) =>
          ⟨Flow.ok edits, p.2, 0, [(kind, false, HResult.val (Js.bool false))]⟩
        | HResult.val (Js.node kind2 fs2) =>
          let r := visitDescend vis
            (fun s1 c ck ed => visitPos fuel vis s1 c ck (some (Js.node kind2 fs2)) path1 anc1 ed)
            p.2 kind2 fs2 key parent path1 anc (edits ++ [(key, Js.node kind2 fs2)])
          ⟨r.flow, r.state, r.clones, (kind, false, HResult.val (Js.node kind2 fs2)) :: r.calls⟩
        | HResult.val v =>
          ⟨Flow.ok (edits ++ [(key, v)]), p.2, 0, [(kind, false, HResult.val v)]⟩

/-- Final outcome of a whole visit call. -/
inductive Outcome where
  | done : Js → Outcome
  | invalid : Outcome
  | outOfFuel : Outcome
deriving DecidableEq

/-- Output of a whole visit call, with the instrumentation carried over. -/
structure RunOut (σ : Type) where
  outcome : Outcome
  state : σ
  clones : Nat
  calls : List Call
deriving DecidableEq

/-- The final new-root extraction of visit: the last recorded edit of the
edits list current at loop exit, the original root when that list is
empty. -/
def finalRoot (root : Js) (edits : List Edit) : Js :=
  match edits.getLast? with
  | some e => e.2
  | none => root

/-- visit(root, visitor): run the machine from the root position (no key,
no parent, empty path, empty ancestors, empty top edits list) and extract
the new root from the edits list carried by the exit flow. -/
def visit {σ : Type} (fuel : Nat) (vis : Visitor σ) (s : σ) (root : Js) : RunOut σ :=
  let r := visitPos fuel vis s root none none [] [] []
  match r.flow with
  | Flow.ok es => ⟨Outcome.done (finalRoot root es), r.state, r.clones, r.calls⟩
  | Flow.broke es => ⟨Outcome.done (finalRoot root es), r.state, r.clones, r.calls⟩
  | Flow.err => ⟨Outcome.invalid, r.state, r.clones, r.calls⟩
  | Flow.fuelOut => ⟨Outcome.outOfFuel, r.state, r.clones, r.calls⟩

/-! ## visitInParallel (the visitor combinator) -/

/-- Kind tag of a node (combined handlers are only ever called on nodes). -/
def kindOf : Js → String
  | Js.node k _ => k
  | _ => ""

/-- One slot of the combinator's skipping array: clear (null or undefined in
the source), the BREAK sentinel, or a remembered node. -/
inductive SkipMark where
  | clear : SkipMark
  | brkMark : SkipMark
  | nodeMark : Js → SkipMark
deriving DecidableEq

/-- The enter loop of the combined visitor, over the component visitors
paired with their skipping slots: a skipped component is passed over; a
component returning false is marked skipping-until-this-node; one returning
BREAK is marked skipping for good; any other defined result is returned at
once, leaving the remaining slots untouched.  Returns the combined result,
the threaded state, the updated slots, and a mask recording which
components were invoked. -/
def parEnterGo (nodeJ : Js) (key : Option Key) (parent : Option Js)
    (path : List Key) (anc : List Js) {σ : Type} :
    σ → List (Visitor σ × SkipMark) → HResult × σ × List SkipMark × List Bool
  | s, [] => (HResult.undef, s, [], [])
  | s, (v, m) :: rest =>
    match m with
    | SkipMark.clear =>
      match getVisitFn v (kindOf nodeJ) false with
      | none =>
        let r := parEnterGo nodeJ key parent path anc s rest
        (r.1, r.2.1, SkipMark.clear :: r.2.2.1, false :: r.2.2.2)
      | some f =>
        let p := f s nodeJ key parent path anc
        match p.1 with
        | HResult.val (Js.bool false) =>
          let r := parEnterGo nodeJ key parent path anc p.2 rest
          (r.1, r.2.1, SkipMark.nodeMark nodeJ :: r.2.2.1, true :: r.2.2.2)
        | HResult.brk =>
          let r := parEnterGo nodeJ key parent path anc p.2 rest
          (r.1, r.2.1, SkipMark.brkMark :: r.2.2.1, true :: r.2.2.2)
        | HResult.undef =>
          let r := parEnterGo nodeJ key parent path anc p.2 rest
          (r.1, r.2.1, SkipMark.clear :: r.2.2.1, true :: r.2.2.2)
        | HResult.val v0 =>
          (HResult.val v0, p.2, SkipMark.clear :: rest.map Prod.snd,
           true :: rest.map (fun _ => false))
    | m1 =>
      let r := parEnterGo nodeJ key parent path anc s rest
      (r.1, r.2.1, m1 :: r.2.2.1, false :: r.2.2.2)

/-- The leave loop of the combined visitor: as the enter loop, except that a
false result is simply ignored (no mark), and a slot remembering exactly
this node is cleared. -/
def parLeaveGo (nodeJ : Js) (key : Option Key) (parent : Option Js)
    (path : List Key) (anc : List Js) {σ : Type} :
    σ → List (Visitor σ × SkipMark) → HResult × σ × List SkipMark × List Bool
  | s, [] => (HResult.undef, s, [], [])
  | s, (v, m) :: rest =>
    match m with
    | SkipMark.clear =>
      match getVisitFn v (kindOf nodeJ) true with
      | none =>
        let r := parLeaveGo nodeJ key parent path anc s rest
        (r.1, r.2.1, SkipMark.clear :: r.2.2.1, false :: r.2.2.2)
      | some f =>
        let p := f s nodeJ key parent path anc
        match p.1 with
        | HResult.brk =>
          let r := parLeaveGo nodeJ key parent path anc p.2 rest
          (r.1, r.2.1, SkipMark.brkMark :: r.2.2.1, true :: r.2.2.2)
        | HResult.undef =>
          let r := parLeaveGo nodeJ key parent path anc p.2 rest
          (r.1, r.2.1, SkipMark.clear :: r.2.2.1, true :: r.2.2.2)
        | HResult.val (Js.bool false) =>
          let r := parLeaveGo nodeJ key parent path anc p.2 rest
          (r.1, r.2.1, SkipMark.clear :: r.2.2.1, true :: r.2.2.2)
        | HResult.val v0 =>
          (HResult.val v0, p.2, SkipMark.clear :: rest.map Prod.snd,
           true :: rest.map (fun _ => false))
    | SkipMark.nodeMark n =>
      if n = nodeJ then
        let r := parLeaveGo nodeJ key parent path anc s rest
        (r.1, r.2.1, SkipMark.clear :: r.2.2.1, false :: r.2.2.2)
      else
        let r := parLeaveGo nodeJ key parent path anc s rest
        (r.1, r.2.1, SkipMark.nodeMark n :: r.2.2.1, false :: r.2.2.2)
    | SkipMark.brkMark =>
      let r := parLeaveGo nodeJ key parent path anc s rest
      (r.1, r.2.1, SkipMark.brkMark :: r.2.2.1, false :: r.2.2.2)

/-- Translation of visitInParallel: a visitor with only generic enter and
leave handlers, whose closure state is the shared component state paired
with the skipping array. -/
def visitInParallel {σ : Type} (vs : List (Visitor σ)) : Visitor (σ × List SkipMark) :=
  { byKind := fun _ => none,
    enterFn := some (fun st n k p pa a =>
      let r := parEnterGo n k p pa a st.1 (vs.zip st.2)
      (r.1, r.2.1, r.2.2.1)),
    leaveFn := some (fun st n k p pa a =>
      let r := parLeaveGo n k p pa a st.1 (vs.zip st.2)
      (r.1, r.2.1, r.2.2.1)) }

/-! ## The value-to-literal encoder (src/utilities/valueToLiteral.js) -/

/-- A host number is abstracted by its finiteness and, when finite, by the
canonical decimal string the host's String() conversion renders it as. -/
inductive JsNumber where
  | nan : JsNumber
  | posInf : JsNumber
  | negInf : JsNumber
  | finite : String → JsNumber
deriving DecidableEq

/-- Host runtime values handed to the encoder: null, undefined, booleans,
strings, numbers, iterable objects (arrays) and plain key/value objects. -/
inductive GValue where
  | nullV : GValue
  | undefV : GValue
  | boolV : Bool → GValue
  | strV : String → GValue
  | numV : JsNumber → GValue
  | listV : List GValue → GValue
  | objV : List (String × GValue) → GValue

/-- Constant literal AST nodes (ConstValueNode): an object field is its
name paired with its value literal. -/
inductive Lit where
  | nullL : Lit
  | boolL : Bool → Lit
  | intL : String → Lit
  | floatL : String → Lit
  | strL : String → Bool → Lit
  | listL : List Lit → Lit
  | objL : List (String × Lit) → Lit

mutual

/-- Structural equality test on literals. -/
def litBeq : Lit → Lit → Bool
  | Lit.nullL, Lit.nullL => true
  | Lit.boolL a, Lit.boolL b => a == b
  | Lit.intL a, Lit.intL b => a == b
  | Lit.floatL a, Lit.floatL b => a == b
  | Lit.strL a ba, Lit.strL b bb => a == b && ba == bb
  | Lit.listL a, Lit.listL b => litListBeq a b
  | Lit.objL a, Lit.objL b => litFieldsBeq a b
  | _, _ => false

/-- Structural equality test on literal lists. -/
def litListBeq : List Lit → List Lit → Bool
  | [], [] => true
  | a :: l1, b :: l2 => litBeq a b && litListBeq l1 l2
  | _, _ => false

/-- Structural equality test on literal field lists. -/
def litFieldsBeq : List (String × Lit) → List (String × Lit) → Bool
  | [], [] => true
  | (n, v) :: f1, (m, w) :: f2 => n == m && litBeq v w && litFieldsBeq f1 f2
  | _, _ => false

end

mutual

theorem litBeq_iff : ∀ a b : Lit, litBeq a b = true ↔ a = b
  | Lit.nullL, b => by cases b <;> simp [litBeq]
  | Lit.boolL a, b => by cases b <;> simp [litBeq]
  | Lit.intL a, b => by cases b <;> simp [litBeq]
  | Lit.floatL a, b => by cases b <;> simp [litBeq]
  | Lit.strL a ba, b => by cases b <;> simp [litBeq]
  | Lit.listL a, b => by
    cases b with
    | listL l => simp [litBeq, litListBeq_iff a l]
    | nullL => simp [litBeq]
    | boolL x => simp [litBeq]
    | intL x => simp [litBeq]
    | floatL x => simp [litBeq]
    | strL x y => simp [litBeq]
    | objL x => simp [litBeq]
  | Lit.objL a, b => by
    cases b with
    | objL l => simp [litBeq, litFieldsBeq_iff a l]
    | nullL => simp [litBeq]
    | boolL x => simp [litBeq]
    | intL x => simp [litBeq]
    | floatL x => simp [litBeq]
    | strL x y => simp [litBeq]
    | listL x => simp [litBeq]

theorem litListBeq_iff : ∀ a b : List Lit, litListBeq a b = true ↔ a = b
  | [], b => by cases b <;> simp [litListBeq]
  | x :: l1, b => by
    cases b with
    | nil => simp [litListBeq]
    | cons y l2 => simp [litListBeq, litBeq_iff x y, litListBeq_iff l1 l2]

theorem litFieldsBeq_iff : ∀ a b : List (String × Lit), litFieldsBeq a b = true ↔ a = b
  | [], b => by cases b <;> simp [litFieldsBeq]
  | (n, v) :: f1, b => by
    cases b with
    | nil => simp [litFieldsBeq]
    | cons p f2 =>
      obtain ⟨m, w⟩ := p
      simp [litFieldsBeq, litBeq_iff v w, litFieldsBeq_iff f1 f2, and_assoc]

end

instance : DecidableEq Lit := fun a b =>
  decidable_of_iff (litBeq a b = true) (litBeq_iff a b)

mutual

/-- Structural equality test on host values. -/
def gvBeq : GValue → GValue → Bool
  | GValue.nullV, GValue.nullV => true
  | GValue.undefV, GValue.undefV => true
  | GValue.boolV a, GValue.boolV b => a == b
  | GValue.strV a, GValue.strV b => a == b
  | GValue.numV a, GValue.numV b => decide (a = b)
  | GValue.listV a, GValue.listV b => gvListBeq a b
  | GValue.objV a, GValue.objV b => gvFieldsBeq a b
  | _, _ => false

/-- Structural equality test on host value lists. -/
def gvListBeq : List GValue → List GValue → Bool
  | [], [] => true
  | a :: l1, b :: l2 => gvBeq a b && gvListBeq l1 l2
  | _, _ => false

/-- Structural equality test on host value field lists. -/
def gvFieldsBeq : List (String × GValue) → List (String × GValue) → Bool
  | [], [] => true
  | (n, v) :: f1, (m, w) :: f2 => n == m && gvBeq v w && gvFieldsBeq f1 f2
  | _, _ => false

end

mutual

theorem gvBeq_iff : ∀ a b : GValue, gvBeq a b = true ↔ a = b
  | GValue.nullV, b => by cases b <;> simp [gvBeq]
  | GValue.undefV, b => by cases b <;> simp [gvBeq]
  | GValue.boolV a, b => by cases b <;> simp [gvBeq]
  | GValue.strV a, b => by cases b <;> simp [gvBeq]
  | GValue.numV a, b => by cases b <;> simp [gvBeq]
  | GValue.listV a, b => by
    cases b with
    | listV l => simp [gvBeq, gvListBeq_iff a l]
    | nullV => simp [gvBeq]
    | undefV => simp [gvBeq]
    | boolV x => simp [gvBeq]
    | strV x => simp [gvBeq]
    | numV x => simp [gvBeq]
    | objV x => simp [gvBeq]
  | GValue.objV a, b => by
    cases b with
    | objV l => simp [gvBeq, gvFieldsBeq_iff a l]
    | nullV => simp [gvBeq]
    | undefV => simp [gvBeq]
    | boolV x => simp [gvBeq]
    | strV x => simp [gvBeq]
    | numV x => simp [gvBeq]
    | listV x => simp [gvBeq]

theorem gvListBeq_iff : ∀ a b : List GValue, gvListBeq a b = true ↔ a = b
  | [], b => by cases b <;> simp [gvListBeq]
  | x :: l1, b => by
    cases b with
    | nil => simp [gvListBeq]
    | cons y l2 => simp [gvListBeq, gvBeq_iff x y, gvListBeq_iff l1 l2]

theorem gvFieldsBeq_iff : ∀ a b : List (String × GValue), gvFieldsBeq a b = true ↔ a = b
  | [], b => by cases b <;> simp [gvFieldsBeq]
  | (n, v) :: f1, b => by
    cases b with
    | nil => simp [gvFieldsBeq]
    | cons p f2 =>
      obtain ⟨m, w⟩ := p
      simp [gvFieldsBeq, gvBeq_iff v w, gvFieldsBeq_iff f1 f2, and_assoc]

end

instance : DecidableEq GValue := fun a b =>
  decidable_of_iff (gvBeq a b = true) (gvBeq_iff a b)

/-- GraphQL input types as consumed by the encoder: non-null and list
wrappers, input objects carrying (name, type, hasDefaultValue) field
declarations in declared order, and leaf types with an optional custom
literal encoder. -/
inductive GType where
  | nonNull : GType → GType
  | listType : GType → GType
  | inputObject : List (String × GType × Bool) → GType
  | leafType : Option (GValue → Option Lit) → GType

/-- isObjectLike: a non-null value of typeof object (arrays included). -/
def isObjectLike : GValue → Bool
  | GValue.listV _ => true
  | GValue.objV _ => true
  | _ => false

/-- isIterableObject: an object with an iterator (arrays; strings are not
typeof object). -/
def isIterableObject : GValue → Bool
  | GValue.listV _ => true
  | _ => false

/-- Object.keys: own enumerable keys in order; an array's keys are its
indices rendered in decimal. -/
def gvKeys : GValue → List String
  | GValue.objV fs => fs.map Prod.fst
  | GValue.listV l => (List.range l.length).map (fun i => toString i)
  | _ => []

/-- Property lookup on an object field list. -/
def gvGetFields : List (String × GValue) → String → GValue
  | [], _ => GValue.undefV
  | (n, v) :: fs, name => if n = name then v else gvGetFields fs name

/-- Property lookup by decimal index string on an array. -/
def gvGetIndex : List GValue → Nat → String → GValue
  | [], _, _ => GValue.undefV
  | v :: l, i, name => if toString i = name then v else gvGetIndex l (i + 1) name

/-- Property access value[name]: first binding of an object, the decimal
index of an array, undefined otherwise. -/
def gvGet : GValue → String → GValue
  | GValue.objV fs, name => gvGetFields fs name
  | GValue.listV l, name => gvGetIndex l 0 name
  | _, _ => GValue.undefV

/-- isRequiredInput: a non-null field type with no default value. -/
def isRequiredInput : GType → Bool → Bool
  | GType.nonNull _, hasDefault => !hasDefault
  | _, _ => false

/-- One character of the IntValue pattern body. -/
def isDigitCh (c : Char) : Bool := decide ('0' ≤ c) && decide (c ≤ '9')

/-- The unsigned part of the pattern: 0, or a nonzero digit followed by
digits. -/
def isIntegerDigits : List Char → Bool
  | [] => false
  | ['0'] => true
  | c :: rest => decide ('1' ≤ c) && decide (c ≤ '9') && rest.all isDigitCh

/-- The IntValue test used by the default scalar encoder: an optional minus
sign, then a no-leading-zero integer. -/
def isIntegerString (s : String) : Bool :=
  match s.toList with
  | '-' :: rest => isIntegerDigits rest
  | cs => isIntegerDigits cs

mutual

/-- Translation of defaultScalarValueToLiteral, the untyped structural
fallback encoder: null and undefined become a null literal, booleans and
strings their literals, numbers as described by their canonical decimal
string (non-finite becoming null), iterables become list literals, and
key/value objects become object literals whose undefined-valued keys are
dropped. -/
def defaultScalarValueToLiteral : GValue → Lit
  | GValue.nullV => Lit.nullL
  | GValue.undefV => Lit.nullL
  | GValue.boolV b => Lit.boolL b
  | GValue.strV s => Lit.strL s false
  | GValue.numV JsNumber.nan => Lit.nullL
  | GValue.numV JsNumber.posInf => Lit.nullL
  | GValue.numV JsNumber.negInf => Lit.nullL
  | GValue.numV (JsNumber.finite s) =>
    if isIntegerString s then Lit.intL s else Lit.floatL s
  | GValue.listV items => Lit.listL (dsvlList items)
  | GValue.objV fs => Lit.objL (dsvlFields fs)

/-- Elementwise default scalar encoding of an iterable. -/
def dsvlList : List GValue → List Lit
  | [] => []
  | x :: xs => defaultScalarValueToLiteral x :: dsvlList xs

/-- Fieldwise default scalar encoding of a key/value object, dropping
undefined fields. -/
def dsvlFields : List (String × GValue) → List (String × Lit)
  | [] => []
  | (n, v) :: fs =>
    if v = GValue.undefV then dsvlFields fs
    else (n, defaultScalarValueToLiteral v) :: dsvlFields fs

end

mutual

/-- Translation of valueToLiteral: non-null unwrap rejecting null values;
null and undefined become null literals; list types encode iterables
elementwise (aborting whole on any absent element) and apply the inner
type directly to a non-iterable; input objects demand an object-like value
with no keys outside the declared field set and encode the declared fields
in order; leaf types use the custom encoder when present, the default
scalar encoder otherwise. -/
def valueToLiteral : GValue → GType → Option Lit
  | v, GType.nonNull inner =>
    if v = GValue.nullV ∨ v = GValue.undefV then none
    else valueToLiteral v inner
  | GValue.nullV, _ => some Lit.nullL
  | GValue.undefV, _ => some Lit.nullL
  | GValue.listV items, GType.listType inner =>
    (vtlItems items inner).map Lit.listL
  | v, GType.listType inner => valueToLiteral v inner
  | v, GType.inputObject fds =>
    if isObjectLike v then
      if (gvKeys v).all (fun name => fds.any (fun f => f.1 = name)) then
        (vtlFields v fds).map Lit.objL
      else none
    else none
  | v, GType.leafType custom =>
    match custom with
    | some f => f v
    | none => some (defaultScalarValueToLiteral v)
termination_by v t => (sizeOf t, sizeOf v)

/-- Elementwise encoding of an iterable at the list item type; any absent
item aborts the whole list. -/
def vtlItems : List GValue → GType → Option (List Lit)
  | [], _ => some []
  | x :: xs, inner =>
    match valueToLiteral x inner with
    | none => none
    | some l => (vtlItems xs inner).map (fun ls => l :: ls)
termination_by items inner => (sizeOf inner, sizeOf items)

/-- The declared-field loop of the input object branch: a declared field the
value omits is rejected when required, otherwise encoded recursively; any
failure aborts the whole object; output order is declared order. -/
def vtlFields (v : GValue) : List (String × GType × Bool) → Option (List (String × Lit))
  | [] => some []
  | (name, ftype, hasDefault) :: rest =>
    if gvGet v name = GValue.undefV ∧ isRequiredInput ftype hasDefault then none
    else
      match valueToLiteral (gvGet v name) ftype with
      | none => none
      | some l => (vtlFields v rest).map (fun ls => (name, l) :: ls)
termination_by fds => (sizeOf fds, 0)

end

/-! ## getLiteralDefaultValue (the default-value memo) -/

/-- Modelled from the spec: the external literal-encoder collaborator
(astFromValue, whose source is not part of this repository slice) that
getLiteralDefaultValue uses to convert the stored runtime value; the spec
routes this conversion through the literal encoder. -/
def astFromValue (v : GValue) (t : GType) : Option Lit := valueToLiteral v t

/-- A default-value usage: at most one of the literal or the runtime value
is set at construction, plus the hidden write-once memo slot. -/
structure DefaultValueUsage where
  literalVal : Option Lit
  value : GValue
  memoizedLiteral : Option Lit

/-- Translation of getLiteralDefaultValue with the memo-slot mutation made
explicit: the result is the returned literal, the updated usage, and a flag
recording whether a conversion was performed on this call; none models the
fatal invariant failure when the stored value is unconvertible. -/
def getLiteralDefaultValue (usage : DefaultValueUsage) (t : GType) :
    Option (Lit × DefaultValueUsage × Bool) :=
  match usage.literalVal with
  | some l => some (l, usage, false)
  | none =>
    match usage.memoizedLiteral with
    | some l => some (l, usage, false)
    | none =>
      match astFromValue usage.value t with
      | none => none
      | some l =>
        some (l, DefaultValueUsage.mk usage.literalVal usage.value (some l), true)

/-! ## Theorems -/

mutual

/-- A generous size measure for fuel bounds: a node accounts for itself,
one unit per visitable key (absent children included) and its fields. -/
def jsSize : Js → Nat
  | Js.null => 1
  | Js.undef => 1
  | Js.bool _ => 1
  | Js.str _ => 1
  | Js.arr es => 1 + jsSizeList es
  | Js.node kind fs => 1 + (QueryDocumentKeys kind).length + jsSizeFields fs

/-- Summed size of array elements. -/
def jsSizeList : List Js → Nat
  | [] => 0
  | e :: es => jsSize e + jsSizeList es

/-- Summed size of node fields. -/
def jsSizeFields : List (String × Js) → Nat
  | [] => 0
  | (_, v) :: fs => jsSize v + jsSizeFields fs

end

theorem jsSize_pos (j : Js) : 1 ≤ jsSize j := by
  cases j <;> simp only [jsSize] <;> omega

theorem jsSize_lookupField : ∀ (fs : List (String × Js)) (k : String),
    jsSize (lookupField fs k) ≤ 1 + jsSizeFields fs
  | [], k => by simp [lookupField, jsSize]
  | (n, v) :: fs, k => by
    simp only [lookupField, jsSizeFields]
    split
    · omega
    · have := jsSize_lookupField fs k
      omega

theorem jsSizeList_elem : ∀ (es : List Js) (e : Js), e ∈ es → jsSize e ≤ jsSizeList es
  | [], e, h => absurd h (List.not_mem_nil e)
  | x :: es, e, h => by
    rcases List.mem_cons.mp h with h | h
    · subst h
      simp only [jsSizeList]
      omega
    · have := jsSizeList_elem es e h
      simp only [jsSizeList]
      omega

/-- A value is a valid traversal tree when every position the machine can
reach (the root, the visitable fields of nodes, array elements) holds
null, undefined, a node or an array. -/
inductive Valid : Js → Prop where
  | vnull : Valid Js.null
  | vundef : Valid Js.undef
  | varr : ∀ es : List Js, (∀ e ∈ es, Valid e) → Valid (Js.arr es)
  | vnode : ∀ (kind : String) (fs : List (String × Js)),
      (∀ k ∈ QueryDocumentKeys kind, Valid (lookupField fs k)) →
      Valid (Js.node kind fs)

/-- All handlers the visitor can resolve return undefined (on every state
and argument tuple). -/
def AllUndef {σ : Type} (vis : Visitor σ) : Prop :=
  ∀ kind isL h, getVisitFn vis kind isL = some h →
    ∀ s n k p pa a, (h s n k p pa a).1 = HResult.undef

theorem visitFieldsF_allOk {σ : Type}
    (visitChild : σ → Js → Option Key → List Edit → VOut σ)
    (fs2 : List (String × Js)) :
    ∀ ks : List String,
      (∀ k, k ∈ ks → ∀ s ed, ∃ s2 cs,
        visitChild s (lookupField fs2 k) (some (Sum.inl k)) ed = ⟨Flow.ok ed, s2, 0, cs⟩) →
      ∀ s ed, ∃ s2 cs, visitFieldsF visitChild fs2 ks s ed = ⟨Flow.ok ed, s2, 0, cs⟩
  | [], _, s, ed => ⟨s, [], rfl⟩
  | k :: ks, h, s, ed => by
    obtain ⟨s2, cs, hc⟩ := h k (List.mem_cons_self k ks) s ed
    obtain ⟨s3, cs2, hrest⟩ :=
      visitFieldsF_allOk visitChild fs2 ks (fun k2 hk2 => h k2 (List.mem_cons_of_mem k hk2)) s2 ed
    refine ⟨s3, cs ++ cs2, ?_⟩
    simp [visitFieldsF, hc, hrest]

theorem visitElemsF_allOk {σ : Type}
    (visitChild : σ → Js → Option Key → List Edit → VOut σ) :
    ∀ es : List Js,
      (∀ e, e ∈ es → ∀ i s ed, ∃ s2 cs,
        visitChild s e (some (Sum.inr i)) ed = ⟨Flow.ok ed, s2, 0, cs⟩) →
      ∀ i s ed, ∃ s2 cs, visitElemsF visitChild es i s ed = ⟨Flow.ok ed, s2, 0, cs⟩
  | [], _, i, s, ed => ⟨s, [], rfl⟩
  | e :: es, h, i, s, ed => by
    obtain ⟨s2, cs, hc⟩ := h e (List.mem_cons_self e es) i s ed
    obtain ⟨s3, cs2, hrest⟩ :=
      visitElemsF_allOk visitChild es (fun e2 he2 => h e2 (List.mem_cons_of_mem e he2)) (i + 1) s2 ed
    refine ⟨s3, cs ++ cs2, ?_⟩
    simp [visitElemsF, hc, hrest]

theorem visitDescend_allUndef {σ : Type} (vis : Visitor σ) (hA : AllUndef vis)
    (visitChild : σ → Js → Option Key → List Edit → VOut σ)
    (kind2 : String) (fs2 : List (String × Js))
    (hfields : ∀ s ed, ∃ s2 cs,
      visitFieldsF visitChild fs2 (QueryDocumentKeys kind2) s ed = ⟨Flow.ok ed, s2, 0, cs⟩)
    (s : σ) (key : Option Key) (parent : Option Js) (path1 : List Key)
    (anc : List Js) (edits : List Edit) :
    ∃ s2 cs, visitDescend vis visitChild s kind2 fs2 key parent path1 anc edits
      = ⟨Flow.ok edits, s2, 0, cs⟩ := by
  obtain ⟨s2, cs, hf⟩ := hfields s []
  cases hget : getVisitFn vis kind2 true with
  | none => exact ⟨s2, cs, by simp [visitDescend, hf, hget]⟩
  | some h2 =>
    have hu := hA kind2 true h2 hget s2 (Js.node kind2 fs2) key parent path1 anc
    refine ⟨(h2 s2 (Js.node kind2 fs2) key parent path1 anc).2,
      cs ++ [(kind2, true, HResult.undef)], ?_⟩
    simp only [visitDescend, hf, hget, hu]

theorem allUndef_visitPos {σ : Type} (vis : Visitor σ) (hA : AllUndef vis) :
    ∀ nodeJ, Valid nodeJ → ∀ fuel, jsSize nodeJ ≤ fuel →
    ∀ (s : σ) key parent path anc edits, ∃ s2 cs,
      visitPos fuel vis s nodeJ key parent path anc edits = ⟨Flow.ok edits, s2, 0, cs⟩ := by
  intro nodeJ hv
  induction hv with
  | vnull =>
    intro fuel hf s key parent path anc edits
    obtain ⟨f, rfl⟩ : ∃ f, fuel = f + 1 := ⟨fuel - 1, by simp [jsSize] at hf; omega⟩
    exact ⟨s, [], rfl⟩
  | vundef =>
    intro fuel hf s key parent path anc edits
    obtain ⟨f, rfl⟩ : ∃ f, fuel = f + 1 := ⟨fuel - 1, by simp [jsSize] at hf; omega⟩
    exact ⟨s, [], rfl⟩
  | varr es hmem ih =>
    intro fuel hf s key parent path anc edits
    simp only [jsSize] at hf
    obtain ⟨f, rfl⟩ : ∃ f, fuel = f + 1 := ⟨fuel - 1, by omega⟩
    have hfle : jsSizeList es ≤ f := by omega
    obtain ⟨s2, cs, hel⟩ := visitElemsF_allOk
      (fun s1 c ck ed => visitPos f vis s1 c ck (some (Js.arr es))
        (if parent.isSome then path ++ key.toList else path) (anc ++ parent.toList) ed)
      es
      (fun e he i s1 ed => ih e he f
        (le_trans (jsSizeList_elem es e he) hfle) s1 (some (Sum.inr i))
        (some (Js.arr es)) (if parent.isSome then path ++ key.toList else path)
        (anc ++ parent.toList) ed)
      0 s []
    exact ⟨s2, cs, by simp [visitPos, hel]⟩
  | vnode kind fs hmem ih =>
    intro fuel hf s key parent path anc edits
    simp only [jsSize] at hf
    obtain ⟨f, rfl⟩ : ∃ f, fuel = f + 1 := ⟨fuel - 1, by omega⟩
    have hfb : (QueryDocumentKeys kind).length + jsSizeFields fs ≤ f := by omega
    have hfields : ∀ pth ancs, ∀ (s1 : σ) ed, ∃ s2 cs,
        visitFieldsF (fun s1 c ck ed => visitPos f vis s1 c ck (some (Js.node kind fs))
          pth ancs ed) fs (QueryDocumentKeys kind) s1 ed = ⟨Flow.ok ed, s2, 0, cs⟩ := by
      intro pth ancs
      refine visitFieldsF_allOk _ fs (QueryDocumentKeys kind) ?_
      intro k hk s1 ed
      have hlen : 1 ≤ (QueryDocumentKeys kind).length :=
        List.length_pos.mpr (List.ne_nil_of_mem hk)
      have hsz : jsSize (lookupField fs k) ≤ f := by
        have := jsSize_lookupField fs k
        omega
      exact ih k hk f hsz s1 (some (Sum.inl k)) (some (Js.node kind fs)) pth ancs ed
    cases hget : getVisitFn vis kind false with
    | none =>
      obtain ⟨s2, cs, hd⟩ := visitDescend_allUndef vis hA _ kind fs
        (hfields (if parent.isSome then path ++ key.toList else path) (anc ++ parent.toList))
        s key parent (if parent.isSome then path ++ key.toList else path) anc edits
      exact ⟨s2, cs, by simp [visitPos, hget, hd]⟩
    | some h =>
      have hu := hA kind false h hget s (Js.node kind fs) key parent
        (if parent.isSome then path ++ key.toList else path) anc
      obtain ⟨s2, cs, hd⟩ := visitDescend_allUndef vis hA _ kind fs
        (hfields (if parent.isSome then path ++ key.toList else path) (anc ++ parent.toList))
        ((h s (Js.node kind fs) key parent
          (if parent.isSome then path ++ key.toList else path) anc).2)
        key parent (if parent.isSome then path ++ key.toList else path) anc edits
      refine ⟨s2, (kind, false, HResult.undef) :: cs, ?_⟩
      simp only [visitPos, hget, hu, hd]

/-- Claim C1: visiting any valid tree with a visitor all of whose resolved
handlers return undefined yields the original root itself, performing no
clone (and therefore replacing no part of the tree). -/
theorem visit_no_edits_returns_root {σ : Type} (vis : Visitor σ) (root : Js)
    (hA : AllUndef vis) (hV : Valid root) (fuel : Nat) (hf : jsSize root ≤ fuel)
    (s : σ) :
    (visit fuel vis s root).outcome = Outcome.done root ∧
    (visit fuel vis s root).clones = 0 := by
  obtain ⟨s2, cs, h⟩ := allUndef_visitPos vis hA root hV fuel hf s none none [] [] []
  simp [visit, h, finalRoot]

/-- A visitor with generic enter and leave handlers that always return
undefined. -/
def undefGenericVis : Visitor Unit :=
  ⟨fun _ => none, some (fun s _ _ _ _ _ => (HResult.undef, s)),
   some (fun s _ _ _ _ _ => (HResult.undef, s))⟩

/-- A small concrete document used by witnesses. -/
def docW : Js :=
  Js.node "Document" [("definitions", Js.arr [Js.node "OperationDefinition"
    [("selectionSet", Js.node "SelectionSet" [("selections", Js.arr
      [Js.node "Field" [("name", Js.node "Name" [("value", Js.str "a")])]])])]])]

theorem undefGenericVis_allUndef : AllUndef undefGenericVis := by
  intro kind isL h hget s n k p pa a
  cases isL <;> simp [getVisitFn, undefGenericVis] at hget <;> subst hget <;> rfl

theorem docW_valid : Valid docW := by
  refine Valid.vnode _ _ ?_
  intro k hk
  have hk2 : k = "definitions" := by
    have : QueryDocumentKeys "Document" = ["definitions"] := rfl
    rw [this] at hk
    simpa using hk
  subst hk2
  refine Valid.varr _ ?_
  intro e he
  simp only [docW, lookupField] at he
  have he2 : e = Js.node "OperationDefinition"
      [("selectionSet", Js.node "SelectionSet" [("selections", Js.arr
        [Js.node "Field" [("name", Js.node "Name" [("value", Js.str "a")])]])])] := by
    simpa using he
  subst he2
  refine Valid.vnode _ _ ?_
  intro k hk
  have : QueryDocumentKeys "OperationDefinition"
      = ["name", "variableDefinitions", "directives", "selectionSet"] := rfl
  rw [this] at hk
  simp at hk
  rcases hk with rfl | rfl | rfl | rfl
  · exact Valid.vundef
  · exact Valid.vundef
  · exact Valid.vundef
  · refine Valid.vnode _ _ ?_
    intro k hk
    have : QueryDocumentKeys "SelectionSet" = ["selections"] := rfl
    rw [this] at hk
    have hk2 : k = "selections" := by simpa using hk
    subst hk2
    refine Valid.varr _ ?_
    intro e he
    have he2 : e = Js.node "Field" [("name", Js.node "Name" [("value", Js.str "a")])] := by
      simpa using he
    subst he2
    refine Valid.vnode _ _ ?_
    intro k hk
    have : QueryDocumentKeys "Field"
        = ["alias", "name", "arguments", "directives", "selectionSet"] := rfl
    rw [this] at hk
    simp at hk
    rcases hk with rfl | rfl | rfl | rfl | rfl
    · exact Valid.vundef
    · refine Valid.vnode _ _ ?_
      intro k hk
      have : QueryDocumentKeys "Name" = [] := rfl
      rw [this] at hk
      simp at hk
    · exact Valid.vundef
    · exact Valid.vundef
    · exact Valid.vundef

/-- Witness for C1 at a concrete document and the generic undefined
visitor. -/
theorem visit_no_edits_returns_root_witness :
    (visit 40 undefGenericVis () docW).outcome = Outcome.done docW ∧
    (visit 40 undefGenericVis () docW).clones = 0 :=
  visit_no_edits_returns_root undefGenericVis docW undefGenericVis_allUndef
    docW_valid 40 (by decide) ()

/-- Deleting index i and then editing the slot recorded at original index
i + 1 lands on the element originally at i + 1. -/
theorem set_eraseIdx_eq : ∀ (elems : List Js) (i : Nat) (v : Js), i + 1 < elems.length →
    (elems.eraseIdx i).set i v = elems.take i ++ v :: elems.drop (i + 2)
  | [], i, v, h => by simp at h
  | [a], i, v, h => by simp at h
  | a :: b :: t, 0, v, h => by simp [List.eraseIdx, List.set]
  | a :: b :: t, i + 1, v, h => by
    have ih := set_eraseIdx_eq (b :: t) i v (by simpa using Nat.lt_of_succ_lt_succ h)
    simp only [List.eraseIdx, List.set, List.take, List.drop]
    simpa using ih

/-- Claim C3: during edit application on leaving a sequence parent, edits
apply in the order produced against pre-deletion indices, and each prior
deletion decrements the target index of every later edit by one; deleting
the element at original index i and then editing original index i + 1
modifies exactly the post-deletion slot i, leaving the prefix before i and
the suffix after original index i + 1 untouched. -/
theorem applyEditsArr_delete_shift (elems : List Js) (i : Nat) (v : Js)
    (hlen : i + 1 < elems.length) (hv : v ≠ Js.null) :
    applyEditsArr [(some (Sum.inr i), Js.null), (some (Sum.inr (i + 1)), v)] 0 elems
      = elems.take i ++ v :: elems.drop (i + 2) := by
  simp only [applyEditsArr, keyToIndex, if_pos rfl, if_neg hv, Nat.sub_zero,
    Nat.add_sub_cancel]
  exact set_eraseIdx_eq elems i v hlen

/-- Witness for C3 at a concrete sequence. -/
theorem applyEditsArr_delete_shift_witness :
    applyEditsArr [(some (Sum.inr 0), Js.null), (some (Sum.inr 1), Js.str "b2")] 0
        [Js.str "a", Js.str "b", Js.str "c"]
      = [Js.str "b2", Js.str "c"] :=
  applyEditsArr_delete_shift [Js.str "a", Js.str "b", Js.str "c"] 0 (Js.str "b2")
    (by decide) (by decide)

/-- Claim C4: an enter handler returning false skips the node's subtree
entirely: the machine performs no further handler call (the trace holds
exactly the one enter call), never calls the node's leave handler, makes no
clone, and leaves the enclosing frame's edits list unchanged, so the node
itself stays in the result by identity. -/
theorem visitPos_enter_false_skips {σ : Type} (fuel : Nat) (vis : Visitor σ)
    (s s2 : σ) (kind : String) (fs : List (String × Js)) (key : Option Key)
    (parent : Option Js) (path : List Key) (anc : List Js) (edits : List Edit)
    (h : Handler σ) (hget : getVisitFn vis kind false = some h)
    (hres : ∀ p a, h s (Js.node kind fs) key parent p a = (HResult.val (Js.bool false), s2)) :
    visitPos (fuel + 1) vis s (Js.node kind fs) key parent path anc edits
      = ⟨Flow.ok edits, s2, 0, [(kind, false, HResult.val (Js.bool false))]⟩ := by
  simp only [visitPos, hget, hres]

/-- The false-returning enter handler used by the C4 witness. -/
def skipFieldHandler : Handler Unit :=
  fun s _ _ _ _ _ => (HResult.val (Js.bool false), s)

/-- A visitor whose Field entry is a bare enter function returning false. -/
def skipFieldVis : Visitor Unit :=
  ⟨fun k => if k = "Field" then some (KindVisitor.fn skipFieldHandler) else none,
   none, none⟩

/-- Witness for C4 at a concrete node and visitor. -/
theorem visitPos_enter_false_skips_witness :
    visitPos 6 skipFieldVis () (Js.node "Field" [("name", Js.node "Name" [])])
        none none [] [] []
      = ⟨Flow.ok [], (), 0, [("Field", false, HResult.val (Js.bool false))]⟩ :=
  visitPos_enter_false_skips 5 skipFieldVis () () "Field" [("name", Js.node "Name" [])]
    none none [] [] [] skipFieldHandler rfl (fun _ _ => rfl)

/-- Claim C10: when the children of a node produced at least one pending
edit and the node's leave handler returns false, the rebuilt edited node is
silently discarded: no edit is committed into the parent frame (the edits
list is returned unchanged, so the parent keeps the original node), even
though the clone had already been made. -/
theorem visitDescend_leave_false_discards {σ : Type} (vis : Visitor σ)
    (visitChild : σ → Js → Option Key → List Edit → VOut σ)
    (s s1 s3 : σ) (kind2 : String) (fs2 : List (String × Js)) (key : Option Key)
    (parent : Option Js) (path1 : List Key) (anc : List Js) (edits : List Edit)
    (ce : List Edit) (cl : Nat) (cs : List Call)
    (hfields : visitFieldsF visitChild fs2 (QueryDocumentKeys kind2) s []
      = ⟨Flow.ok ce, s1, cl, cs⟩)
    (hne : ce ≠ [])
    (h2 : Handler σ) (hget : getVisitFn vis kind2 true = some h2)
    (hres : ∀ n k p pa a, h2 s1 n k p pa a = (HResult.val (Js.bool false), s3)) :
    visitDescend vis visitChild s kind2 fs2 key parent path1 anc edits
      = ⟨Flow.ok edits, s3, cl + 1, cs ++ [(kind2, true, HResult.val (Js.bool false))]⟩ := by
  cases ce with
  | nil => exact absurd rfl hne
  | cons e ce2 => simp only [visitDescend, hfields, hget, hres]

/-- A child visitor recording one deletion edit per visited child slot. -/
def deletingChild : Unit → Js → Option Key → List Edit → VOut Unit :=
  fun s _ ck ed => ⟨Flow.ok (ed ++ [(ck, Js.null)]), s, 0, []⟩

/-- The false-returning leave handler used by the C10 witness. -/
def leaveFalseHandler : Handler Unit :=
  fun s _ _ _ _ _ => (HResult.val (Js.bool false), s)

/-- A visitor whose Document entry has only a false-returning leave. -/
def leaveFalseVis : Visitor Unit :=
  ⟨fun k => if k = "Document" then some (KindVisitor.obj none (some leaveFalseHandler))
    else none, none, none⟩

/-- Witness for C10 at a concrete frame: the child loop records an edit,
the leave handler returns false, and the parent edits list comes back
unchanged (empty). -/
theorem visitDescend_leave_false_discards_witness :
    visitDescend leaveFalseVis deletingChild () "Document" [("definitions", Js.arr [])]
        none none [] [] []
      = ⟨Flow.ok [], (), 1, [("Document", true, HResult.val (Js.bool false))]⟩ :=
  visitDescend_leave_false_discards leaveFalseVis deletingChild () () () "Document"
    [("definitions", Js.arr [])] none none [] [] []
    [(some (Sum.inl "definitions"), Js.null)] 0 [] rfl (by decide)
    leaveFalseHandler rfl (fun _ _ _ _ _ => rfl)

/-- No call of the trace returned the BREAK sentinel. -/
def NoBrk (cs : List Call) : Prop := ∀ c ∈ cs, c.2.2 ≠ HResult.brk

/-- The trace discipline of the machine: a traversal that broke has exactly
one BREAK-returning call, its last; any other flow has none. -/
def TraceOK (fl : Flow) (cs : List Call) : Prop :=
  match fl with
  | Flow.broke _ => ∃ pre c, cs = pre ++ [c] ∧ c.2.2 = HResult.brk ∧ NoBrk pre
  | _ => NoBrk cs

theorem noBrk_nil : NoBrk [] := fun c hc => absurd hc (List.not_mem_nil c)

theorem noBrk_append {a b : List Call} (ha : NoBrk a) (hb : NoBrk b) :
    NoBrk (a ++ b) := by
  intro c hc
  rcases List.mem_append.mp hc with h | h
  · exact ha c h
  · exact hb c h

theorem noBrk_single {c : Call} (h : c.2.2 ≠ HResult.brk) : NoBrk [c] := by
  intro c2 hc2
  have : c2 = c := by simpa using hc2
  subst this
  exact h

theorem traceOK_cons {fl : Flow} {cs : List Call} {c : Call}
    (h : c.2.2 ≠ HResult.brk) (ht : TraceOK fl cs) : TraceOK fl (c :: cs) := by
  cases fl with
  | broke es =>
    obtain ⟨pre, c2, rfl, hb, hpre⟩ := ht
    exact ⟨c :: pre, c2, rfl, hb, by
      intro x hx
      rcases List.mem_cons.mp hx with rfl | hx
      · exact h
      · exact hpre x hx⟩
  | ok es => exact fun x hx => (List.mem_cons.mp hx).elim (fun h2 => h2 ▸ h) (ht x)
  | err => exact fun x hx => (List.mem_cons.mp hx).elim (fun h2 => h2 ▸ h) (ht x)
  | fuelOut => exact fun x hx => (List.mem_cons.mp hx).elim (fun h2 => h2 ▸ h) (ht x)

theorem traceOK_append_left {fl : Flow} {cs1 cs2 : List Call}
    (h1 : NoBrk cs1) (ht : TraceOK fl cs2) : TraceOK fl (cs1 ++ cs2) := by
  cases fl with
  | broke es =>
    obtain ⟨pre, c2, rfl, hb, hpre⟩ := ht
    exact ⟨cs1 ++ pre, c2, by rw [List.append_assoc], hb, noBrk_append h1 hpre⟩
  | ok es => exact noBrk_append h1 ht
  | err => exact noBrk_append h1 ht
  | fuelOut => exact noBrk_append h1 ht

theorem visitFieldsF_trace {σ : Type}
    (visitChild : σ → Js → Option Key → List Edit → VOut σ)
    (fs2 : List (String × Js))
    (hc : ∀ s c ck ed, TraceOK (visitChild s c ck ed).flow (visitChild s c ck ed).calls) :
    ∀ (ks : List String) (s : σ) ed,
      TraceOK (visitFieldsF visitChild fs2 ks s ed).flow
        (visitFieldsF visitChild fs2 ks s ed).calls
  | [], s, ed => noBrk_nil
  | k :: ks, s, ed => by
    have h1 := hc s (lookupField fs2 k) (some (Sum.inl k)) ed
    rcases hr : visitChild s (lookupField fs2 k) (some (Sum.inl k)) ed with ⟨rf, rs, rc, rcs⟩
    rw [hr] at h1
    simp only [visitFieldsF, hr]
    cases rf with
    | ok edits1 =>
      have h2 := visitFieldsF_trace visitChild fs2 hc ks rs edits1
      exact traceOK_append_left h1 h2
    | broke es => exact h1
    | err => exact h1
    | fuelOut => exact h1

theorem visitElemsF_trace {σ : Type}
    (visitChild : σ → Js → Option Key → List Edit → VOut σ)
    (hc : ∀ s c ck ed, TraceOK (visitChild s c ck ed).flow (visitChild s c ck ed).calls) :
    ∀ (es : List Js) (i : Nat) (s : σ) ed,
      TraceOK (visitElemsF visitChild es i s ed).flow
        (visitElemsF visitChild es i s ed).calls
  | [], i, s, ed => noBrk_nil
  | e :: es, i, s, ed => by
    have h1 := hc s e (some (Sum.inr i)) ed
    rcases hr : visitChild s e (some (Sum.inr i)) ed with ⟨rf, rs, rc, rcs⟩
    rw [hr] at h1
    simp only [visitElemsF, hr]
    cases rf with
    | ok edits1 =>
      have h2 := visitElemsF_trace visitChild hc es (i + 1) rs edits1
      exact traceOK_append_left h1 h2
    | broke es2 => exact h1
    | err => exact h1
    | fuelOut => exact h1

theorem visitDescend_trace {σ : Type} (vis : Visitor σ)
    (visitChild : σ → Js → Option Key → List Edit → VOut σ)
    (hc : ∀ s c ck ed, TraceOK (visitChild s c ck ed).flow (visitChild s c ck ed).calls)
    (s : σ) (kind2 : String) (fs2 : List (String × Js)) (key : Option Key)
    (parent : Option Js) (path1 : List Key) (anc : List Js) (edits : List Edit) :
    TraceOK (visitDescend vis visitChild s kind2 fs2 key parent path1 anc edits).flow
      (visitDescend vis visitChild s kind2 fs2 key parent path1 anc edits).calls := by
  have h1 := visitFieldsF_trace visitChild fs2 hc (QueryDocumentKeys kind2) s []
  rcases hr : visitFieldsF visitChild fs2 (QueryDocumentKeys kind2) s [] with ⟨rf, rs, rc, rcs⟩
  rw [hr] at h1
  simp only [visitDescend, hr]
  cases rf with
  | ok ce =>
    simp only [TraceOK] at h1
    cases ce with
    | nil =>
      cases hget : getVisitFn vis kind2 true with
      | none =>
        simp only [hget, TraceOK]
        exact h1
      | some h2 =>
        cases hp : (h2 rs (Js.node kind2 fs2) key parent path1 anc).1 with
        | brk =>
          simp only [hget, hp, TraceOK]
          exact ⟨rcs, (kind2, true, HResult.brk), rfl, rfl, h1⟩
        | undef =>
          simp only [hget, hp, TraceOK]
          exact noBrk_append h1 (noBrk_single (by simp))
        | val v2 =>
          cases v2 with
          | bool b =>
            cases b with
            | false =>
              simp only [hget, hp, TraceOK]
              exact noBrk_append h1 (noBrk_single (by simp))
            | true =>
              simp only [hget, hp, TraceOK]
              exact noBrk_append h1 (noBrk_single (by simp))
          | null =>
            simp only [hget, hp, TraceOK]
            exact noBrk_append h1 (noBrk_single (by simp))
          | undef =>
            simp only [hget, hp, TraceOK]
            exact noBrk_append h1 (noBrk_single (by simp))
          | str s2 =>
            simp only [hget, hp, TraceOK]
            exact noBrk_append h1 (noBrk_single (by simp))
          | node k2 f2 =>
            simp only [hget, hp, TraceOK]
            exact noBrk_append h1 (noBrk_single (by simp))
          | arr l2 =>
            simp only [hget, hp, TraceOK]
            exact noBrk_append h1 (noBrk_single (by simp))
    | cons e ce2 =>
      cases hget : getVisitFn vis kind2 true with
      | none =>
        simp only [hget, TraceOK]
        exact h1
      | some h2 =>
        cases hp : (h2 rs (Js.node kind2 (applyEditsNode (e :: ce2) fs2)) key parent path1 anc).1 with
        | brk =>
          simp only [hget, hp, TraceOK]
          exact ⟨rcs, (kind2, true, HResult.brk), rfl, rfl, h1⟩
        | undef =>
          simp only [hget, hp, TraceOK]
          exact noBrk_append h1 (noBrk_single (by simp))
        | val v2 =>
          cases v2 with
          | bool b =>
            cases b with
            | false =>
              simp only [hget, hp, TraceOK]
              exact noBrk_append h1 (noBrk_single (by simp))
            | true =>
              simp only [hget, hp, TraceOK]
              exact noBrk_append h1 (noBrk_single (by simp))
          | null =>
            simp only [hget, hp, TraceOK]
            exact noBrk_append h1 (noBrk_single (by simp))
          | undef =>
            simp only [hget, hp, TraceOK]
            exact noBrk_append h1 (noBrk_single (by simp))
          | str s2 =>
            simp only [hget, hp, TraceOK]
            exact noBrk_append h1 (noBrk_single (by simp))
          | node k2 f2 =>
            simp only [hget, hp, TraceOK]
            exact noBrk_append h1 (noBrk_single (by simp))
          | arr l2 =>
            simp only [hget, hp, TraceOK]
            exact noBrk_append h1 (noBrk_single (by simp))
  | broke es => exact h1
  | err => exact h1
  | fuelOut => exact h1

theorem visitPos_trace {σ : Type} (vis : Visitor σ) :
    ∀ (fuel : Nat) (s : σ) nodeJ key parent path anc edits,
      TraceOK (visitPos fuel vis s nodeJ key parent path anc edits).flow
        (visitPos fuel vis s nodeJ key parent path anc edits).calls := by
  intro fuel
  induction fuel with
  | zero => intro s nodeJ key parent path anc edits; exact noBrk_nil
  | succ f ih =>
    intro s nodeJ key parent path anc edits
    cases nodeJ with
    | null => exact noBrk_nil
    | undef => exact noBrk_nil
    | bool b => exact noBrk_nil
    | str s2 => exact noBrk_nil
    | arr elems =>
      have h1 := visitElemsF_trace
        (fun s1 c ck ed => visitPos f vis s1 c ck (some (Js.arr elems))
          (if parent.isSome then path ++ key.toList else path) (anc ++ parent.toList) ed)
        (fun s1 c ck ed => ih s1 c ck (some (Js.arr elems)) _ _ ed)
        elems 0 s []
      rcases hr : visitElemsF
        (fun s1 c ck ed => visitPos f vis s1 c ck (some (Js.arr elems))
          (if parent.isSome then path ++ key.toList else path) (anc ++ parent.toList) ed)
        elems 0 s [] with ⟨rf, rs, rc, rcs⟩
      rw [hr] at h1
      simp only [visitPos, hr]
      cases rf with
      | ok ce =>
        cases ce with
        | nil => exact h1
        | cons e ce2 => exact h1
      | broke es => exact h1
      | err => exact h1
      | fuelOut => exact h1
    | node kind fs =>
      cases hget : getVisitFn vis kind false with
      | none =>
        have hd := visitDescend_trace vis
          (fun s1 c ck ed => visitPos f vis s1 c ck (some (Js.node kind fs))
            (if parent.isSome then path ++ key.toList else path) (anc ++ parent.toList) ed)
          (fun s1 c ck ed => ih s1 c ck (some (Js.node kind fs)) _ _ ed)
          s kind fs key parent (if parent.isSome then path ++ key.toList else path) anc edits
        simpa only [visitPos, hget] using hd
      | some h =>
        cases hp : (h s (Js.node kind fs) key parent
            (if parent.isSome then path ++ key.toList else path) anc).1 with
        | brk =>
          simp only [visitPos, hget, hp]
          exact ⟨[], (kind, false, HResult.brk), rfl, rfl, noBrk_nil⟩
        | undef =>
          have hd := visitDescend_trace vis
            (fun s1 c ck ed => visitPos f vis s1 c ck (some (Js.node kind fs))
              (if parent.isSome then path ++ key.toList else path) (anc ++ parent.toList) ed)
            (fun s1 c ck ed => ih s1 c ck (some (Js.node kind fs)) _ _ ed)
            ((h s (Js.node kind fs) key parent
              (if parent.isSome then path ++ key.toList else path) anc).2)
            kind fs key parent (if parent.isSome then path ++ key.toList else path) anc edits
          simp only [visitPos, hget, hp]
          exact traceOK_cons (by simp) hd
        | val v =>
          cases v with
          | node kind2 fs2 =>
            have hd := visitDescend_trace vis
              (fun s1 c ck ed => visitPos f vis s1 c ck (some (Js.node kind2 fs2))
                (if parent.isSome then path ++ key.toList else path) (anc ++ parent.toList) ed)
              (fun s1 c ck ed => ih s1 c ck (some (Js.node kind2 fs2)) _ _ ed)
              ((h s (Js.node kind fs) key parent
                (if parent.isSome then path ++ key.toList else path) anc).2)
              kind2 fs2 key parent (if parent.isSome then path ++ key.toList else path) anc
              (edits ++ [(key, Js.node kind2 fs2)])
            simp only [visitPos, hget, hp]
            exact traceOK_cons (by simp) hd
          | bool b =>
            cases b with
            | false => simp only [visitPos, hget, hp]; exact noBrk_single (by simp)
            | true => simp only [visitPos, hget, hp]; exact noBrk_single (by simp)
          | null => simp only [visitPos, hget, hp]; exact noBrk_single (by simp)
          | undef => simp only [visitPos, hget, hp]; exact noBrk_single (by simp)
          | str s2 => simp only [visitPos, hget, hp]; exact noBrk_single (by simp)
          | arr l2 => simp only [visitPos, hget, hp]; exact noBrk_single (by simp)

/-- The whole-visit trace equals the machine trace. -/
theorem visit_calls_eq {σ : Type} (fuel : Nat) (vis : Visitor σ) (s : σ) (root : Js) :
    (visit fuel vis s root).calls = (visitPos fuel vis s root none none [] [] []).calls := by
  simp only [visit]
  rcases visitPos fuel vis s root none none [] [] [] with ⟨rf, rs, rc, rcs⟩
  cases rf <;> rfl

/-- Claim C2 (amended): a BREAK result aborts the traversal immediately:
the call that returned BREAK is the last call of the whole trace, so no
handler runs after it; and when the machine broke carrying the edits list
of the frame current at the break, the returned value is the original root
if that list is empty, and otherwise the value of its most recent edit
(pending edits of enclosing frames are not applied to the root). -/
theorem visit_break_aborts {σ : Type} (fuel : Nat) (vis : Visitor σ) (s : σ) (root : Js) :
    (∀ cs c cs2, (visit fuel vis s root).calls = cs ++ c :: cs2 →
      c.2.2 = HResult.brk → cs2 = []) ∧
    (∀ es, (visitPos fuel vis s root none none [] [] []).flow = Flow.broke es →
      (visit fuel vis s root).outcome = Outcome.done (finalRoot root es)) := by
  constructor
  · intro cs c cs2 hsplit hbrk
    rw [visit_calls_eq] at hsplit
    have ht := visitPos_trace vis fuel s root none none [] [] []
    rcases List.eq_nil_or_concat cs2 with rfl | ⟨ys, y, rfl⟩
    · rfl
    · exfalso
      rcases hfl : (visitPos fuel vis s root none none [] [] []).flow with es | es | _ | _ <;>
        rw [hfl] at ht
      · exact ht c (by rw [hsplit]; simp) hbrk
      · obtain ⟨pre, c2, hcat, hb2, hpre⟩ := ht
        rw [hsplit] at hcat
        have hcat2 : (cs ++ c :: ys) ++ [y] = pre ++ [c2] := by
          rw [← hcat]; simp
        have := (List.append_inj' hcat2 rfl).1
        have hcpre : c ∈ pre := by
          rw [← this]; simp
        exact hpre c hcpre hbrk
      · exact ht c (by rw [hsplit]; simp) hbrk
      · exact ht c (by rw [hsplit]; simp) hbrk
  · intro es hfl
    simp only [visit, hfl]

/-- A flow that is not an abort. -/
def NeverBroke (fl : Flow) : Prop := ∀ es, fl ≠ Flow.broke es

/-- All handlers the visitor can resolve never return the BREAK sentinel. -/
def NoBrkVisitor {σ : Type} (vis : Visitor σ) : Prop :=
  ∀ kind isL h, getVisitFn vis kind isL = some h →
    ∀ s n k p pa a, (h s n k p pa a).1 ≠ HResult.brk

theorem visitFieldsF_noBroke {σ : Type}
    (visitChild : σ → Js → Option Key → List Edit → VOut σ)
    (fs2 : List (String × Js))
    (hc : ∀ s c ck ed, NeverBroke (visitChild s c ck ed).flow) :
    ∀ (ks : List String) (s : σ) ed, NeverBroke (visitFieldsF visitChild fs2 ks s ed).flow
  | [], s, ed => by intro es h; simp [visitFieldsF] at h
  | k :: ks, s, ed => by
    have h1 := hc s (lookupField fs2 k) (some (Sum.inl k)) ed
    rcases hr : visitChild s (lookupField fs2 k) (some (Sum.inl k)) ed with ⟨rf, rs, rc, rcs⟩
    rw [hr] at h1
    simp only [visitFieldsF, hr]
    cases rf with
    | ok edits1 => exact visitFieldsF_noBroke visitChild fs2 hc ks rs edits1
    | broke es => exact absurd rfl (h1 es)
    | err => intro es h; simp at h
    | fuelOut => intro es h; simp at h

theorem visitElemsF_noBroke {σ : Type}
    (visitChild : σ → Js → Option Key → List Edit → VOut σ)
    (hc : ∀ s c ck ed, NeverBroke (visitChild s c ck ed).flow) :
    ∀ (es : List Js) (i : Nat) (s : σ) ed, NeverBroke (visitElemsF visitChild es i s ed).flow
  | [], i, s, ed => by intro es h; simp [visitElemsF] at h
  | e :: es, i, s, ed => by
    have h1 := hc s e (some (Sum.inr i)) ed
    rcases hr : visitChild s e (some (Sum.inr i)) ed with ⟨rf, rs, rc, rcs⟩
    rw [hr] at h1
    simp only [visitElemsF, hr]
    cases rf with
    | ok edits1 => exact visitElemsF_noBroke visitChild hc es (i + 1) rs edits1
    | broke es2 => exact absurd rfl (h1 es2)
    | err => intro es2 h; simp at h
    | fuelOut => intro es2 h; simp at h

theorem visitDescend_noBroke {σ : Type} (vis : Visitor σ) (hvis : NoBrkVisitor vis)
    (visitChild : σ → Js → Option Key → List Edit → VOut σ)
    (hc : ∀ s c ck ed, NeverBroke (visitChild s c ck ed).flow)
    (s : σ) (kind2 : String) (fs2 : List (String × Js)) (key : Option Key)
    (parent : Option Js) (path1 : List Key) (anc : List Js) (edits : List Edit) :
    NeverBroke (visitDescend vis visitChild s kind2 fs2 key parent path1 anc edits).flow := by
  have h1 := visitFieldsF_noBroke visitChild fs2 hc (QueryDocumentKeys kind2) s []
  rcases hr : visitFieldsF visitChild fs2 (QueryDocumentKeys kind2) s [] with ⟨rf, rs, rc, rcs⟩
  rw [hr] at h1
  simp only [visitDescend, hr]
  cases rf with
  | ok ce =>
    cases ce with
    | nil =>
      cases hget : getVisitFn vis kind2 true with
      | none => intro es h; simp at h
      | some h2 =>
        have hnb := hvis kind2 true h2 hget rs (Js.node kind2 fs2) key parent path1 anc
        cases hp : (h2 rs (Js.node kind2 fs2) key parent path1 anc).1 with
        | brk => exact absurd hp hnb
        | undef => intro es h; simp [hget, hp] at h
        | val v2 =>
          cases v2 <;> intro es h <;> simp [hget, hp] at h
          case bool b => cases b <;> simp [hget, hp] at h
    | cons e ce2 =>
      cases hget : getVisitFn vis kind2 true with
      | none => intro es h; simp [hget] at h
      | some h2 =>
        have hnb := hvis kind2 true h2 hget rs
          (Js.node kind2 (applyEditsNode (e :: ce2) fs2)) key parent path1 anc
        cases hp : (h2 rs (Js.node kind2 (applyEditsNode (e :: ce2) fs2)) key parent path1 anc).1 with
        | brk => exact absurd hp hnb
        | undef => intro es h; simp [hget, hp] at h
        | val v2 =>
          cases v2 <;> intro es h <;> simp [hget, hp] at h
          case bool b => cases b <;> simp [hget, hp] at h
  | broke es => exact absurd rfl (h1 es)
  | err => intro es h; simp at h
  | fuelOut => intro es h; simp at h

theorem visitPos_noBroke {σ : Type} (vis : Visitor σ) (hvis : NoBrkVisitor vis) :
    ∀ (fuel : Nat) (s : σ) nodeJ key parent path anc edits,
      NeverBroke (visitPos fuel vis s nodeJ key parent path anc edits).flow := by
  intro fuel
  induction fuel with
  | zero => intro s nodeJ key parent path anc edits es h; simp [visitPos] at h
  | succ f ih =>
    intro s nodeJ key parent path anc edits
    cases nodeJ with
    | null => intro es h; simp [visitPos] at h
    | undef => intro es h; simp [visitPos] at h
    | bool b => intro es h; simp [visitPos] at h
    | str s2 => intro es h; simp [visitPos] at h
    | arr elems =>
      have h1 := visitElemsF_noBroke
        (fun s1 c ck ed => visitPos f vis s1 c ck (some (Js.arr elems))
          (if parent.isSome then path ++ key.toList else path) (anc ++ parent.toList) ed)
        (fun s1 c ck ed => ih s1 c ck (some (Js.arr elems)) _ _ ed)
        elems 0 s []
      rcases hr : visitElemsF
        (fun s1 c ck ed => visitPos f vis s1 c ck (some (Js.arr elems))
          (if parent.isSome then path ++ key.toList else path) (anc ++ parent.toList) ed)
        elems 0 s [] with ⟨rf, rs, rc, rcs⟩
      rw [hr] at h1
      simp only [visitPos, hr]
      cases rf with
      | ok ce =>
        cases ce with
        | nil => intro es h; simp at h
        | cons e ce2 => intro es h; simp at h
      | broke es => exact absurd rfl (h1 es)
      | err => intro es h; simp at h
      | fuelOut => intro es h; simp at h
    | node kind fs =>
      cases hget : getVisitFn vis kind false with
      | none =>
        have hd := visitDescend_noBroke vis hvis
          (fun s1 c ck ed => visitPos f vis s1 c ck (some (Js.node kind fs))
            (if parent.isSome then path ++ key.toList else path) (anc ++ parent.toList) ed)
          (fun s1 c ck ed => ih s1 c ck (some (Js.node kind fs)) _ _ ed)
          s kind fs key parent (if parent.isSome then path ++ key.toList else path) anc edits
        intro es h
        simp only [visitPos, hget] at h
        exact absurd h (hd es)
      | some h =>
        have hnb := hvis kind false h hget s (Js.node kind fs) key parent
          (if parent.isSome then path ++ key.toList else path) anc
        cases hp : (h s (Js.node kind fs) key parent
            (if parent.isSome then path ++ key.toList else path) anc).1 with
        | brk => exact absurd hp hnb
        | undef =>
          have hd := visitDescend_noBroke vis hvis
            (fun s1 c ck ed => visitPos f vis s1 c ck (some (Js.node kind fs))
              (if parent.isSome then path ++ key.toList else path) (anc ++ parent.toList) ed)
            (fun s1 c ck ed => ih s1 c ck (some (Js.node kind fs)) _ _ ed)
            ((h s (Js.node kind fs) key parent
              (if parent.isSome then path ++ key.toList else path) anc).2)
            kind fs key parent (if parent.isSome then path ++ key.toList else path) anc edits
          intro es h2
          simp only [visitPos, hget, hp] at h2
          exact absurd h2 (hd es)
        | val v =>
          cases v with
          | node kind2 fs2 =>
            have hd := visitDescend_noBroke vis hvis
              (fun s1 c ck ed => visitPos f vis s1 c ck (some (Js.node kind2 fs2))
                (if parent.isSome then path ++ key.toList else path) (anc ++ parent.toList) ed)
              (fun s1 c ck ed => ih s1 c ck (some (Js.node kind2 fs2)) _ _ ed)
              ((h s (Js.node kind fs) key parent
                (if parent.isSome then path ++ key.toList else path) anc).2)
              kind2 fs2 key parent (if parent.isSome then path ++ key.toList else path) anc
              (edits ++ [(key, Js.node kind2 fs2)])
            intro es h2
            simp only [visitPos, hget, hp] at h2
            exact absurd h2 (hd es)
          | bool b =>
            cases b with
            | false => intro es h2; simp [visitPos, hget, hp] at h2
            | true => intro es h2; simp [visitPos, hget, hp] at h2
          | null => intro es h2; simp [visitPos, hget, hp] at h2
          | undef => intro es h2; simp [visitPos, hget, hp] at h2
          | str s3 => intro es h2; simp [visitPos, hget, hp] at h2
          | arr l2 => intro es h2; simp [visitPos, hget, hp] at h2

/-- All handlers the visitor can resolve only ever return undefined, BREAK
or false (no replacements): the regime in which the combinator's skip
machinery is exercised without component short-circuiting. -/
def NoReplaceVisitor {σ : Type} (vis : Visitor σ) : Prop :=
  ∀ kind isL h, getVisitFn vis kind isL = some h →
    ∀ s n k p pa a, (h s n k p pa a).1 = HResult.undef ∨
      (h s n k p pa a).1 = HResult.brk ∨
      (h s n k p pa a).1 = HResult.val (Js.bool false)

/-- The combined enter loop never returns the BREAK sentinel. -/
theorem parEnterGo_ne_brk (n : Js) (k : Option Key) (p : Option Js)
    (pa : List Key) (a : List Js) {σ : Type} :
    ∀ (pairs : List (Visitor σ × SkipMark)) (s : σ),
      (parEnterGo n k p pa a s pairs).1 ≠ HResult.brk
  | [], s => by simp [parEnterGo]
  | (v0, m0) :: rest, s => by
    cases m0 with
    | clear =>
      cases hget : getVisitFn v0 (kindOf n) false with
      | none =>
        simp only [parEnterGo, hget]
        exact parEnterGo_ne_brk n k p pa a rest s
      | some f =>
        cases hp : (f s n k p pa a).1 with
        | brk =>
          simp only [parEnterGo, hget, hp]
          exact parEnterGo_ne_brk n k p pa a rest (f s n k p pa a).2
        | undef =>
          simp only [parEnterGo, hget, hp]
          exact parEnterGo_ne_brk n k p pa a rest (f s n k p pa a).2
        | val v1 =>
          cases v1 with
          | bool b =>
            cases b with
            | false =>
              simp only [parEnterGo, hget, hp]
              exact parEnterGo_ne_brk n k p pa a rest (f s n k p pa a).2
            | true => simp [parEnterGo, hget, hp]
          | null => simp [parEnterGo, hget, hp]
          | undef => simp [parEnterGo, hget, hp]
          | str s2 => simp [parEnterGo, hget, hp]
          | node k2 f2 => simp [parEnterGo, hget, hp]
          | arr l2 => simp [parEnterGo, hget, hp]
    | brkMark =>
      simp only [parEnterGo]
      exact parEnterGo_ne_brk n k p pa a rest s
    | nodeMark nd =>
      simp only [parEnterGo]
      exact parEnterGo_ne_brk n k p pa a rest s

/-- The combined leave loop never returns the BREAK sentinel. -/
theorem parLeaveGo_ne_brk (n : Js) (k : Option Key) (p : Option Js)
    (pa : List Key) (a : List Js) {σ : Type} :
    ∀ (pairs : List (Visitor σ × SkipMark)) (s : σ),
      (parLeaveGo n k p pa a s pairs).1 ≠ HResult.brk
  | [], s => by simp [parLeaveGo]
  | (v0, m0) :: rest, s => by
    cases m0 with
    | clear =>
      cases hget : getVisitFn v0 (kindOf n) true with
      | none =>
        simp only [parLeaveGo, hget]
        exact parLeaveGo_ne_brk n k p pa a rest s
      | some f =>
        cases hp : (f s n k p pa a).1 with
        | brk =>
          simp only [parLeaveGo, hget, hp]
          exact parLeaveGo_ne_brk n k p pa a rest (f s n k p pa a).2
        | undef =>
          simp only [parLeaveGo, hget, hp]
          exact parLeaveGo_ne_brk n k p pa a rest (f s n k p pa a).2
        | val v1 =>
          cases v1 with
          | bool b =>
            cases b with
            | false =>
              simp only [parLeaveGo, hget, hp]
              exact parLeaveGo_ne_brk n k p pa a rest (f s n k p pa a).2
            | true => simp [parLeaveGo, hget, hp]
          | null => simp [parLeaveGo, hget, hp]
          | undef => simp [parLeaveGo, hget, hp]
          | str s2 => simp [parLeaveGo, hget, hp]
          | node k2 f2 => simp [parLeaveGo, hget, hp]
          | arr l2 => simp [parLeaveGo, hget, hp]
    | brkMark =>
      if hnd : SkipMark.brkMark = SkipMark.clear then simp at hnd
      else
        simp only [parLeaveGo]
        exact parLeaveGo_ne_brk n k p pa a rest s
    | nodeMark nd =>
      by_cases hnd : nd = n
      · simp only [parLeaveGo, if_pos hnd]
        exact parLeaveGo_ne_brk n k p pa a rest s
      · simp only [parLeaveGo, if_neg hnd]
        exact parLeaveGo_ne_brk n k p pa a rest s

/-- A non-clear slot of the enter loop keeps its mark and its component is
not invoked. -/
theorem parEnterGo_keep_mark (n : Js) (k : Option Key) (p : Option Js)
    (pa : List Key) (a : List Js) {σ : Type} :
    ∀ (pairs : List (Visitor σ × SkipMark)) (s : σ) (j : Nat) (v : Visitor σ) (m : SkipMark),
      pairs[j]? = some (v, m) → m ≠ SkipMark.clear →
      (parEnterGo n k p pa a s pairs).2.2.1[j]? = some m ∧
      (parEnterGo n k p pa a s pairs).2.2.2[j]? = some false
  | [], s, j, v, m, hj, hm => by simp at hj
  | (v0, m0) :: rest, s, j, v, m, hj, hm => by
    cases j with
    | zero =>
      have hj2 : v0 = v ∧ m0 = m := by simpa using hj
      obtain ⟨rfl, hm0⟩ := hj2
      subst hm0
      cases m0 with
      | clear => exact absurd rfl hm
      | brkMark => simp [parEnterGo]
      | nodeMark nd => simp [parEnterGo]
    | succ j2 =>
      have hj2 : rest[j2]? = some (v, m) := by simpa using hj
      have hlt : j2 < rest.length := by
        by_contra hge
        rw [List.getElem?_eq_none (Nat.le_of_not_lt hge)] at hj2
        exact absurd hj2 (by simp)
      have hg := List.getElem?_eq_getElem hlt
      rw [hj2] at hg
      have hgp := (Option.some_inj.mp hg).symm
      cases m0 with
      | clear =>
        cases hget : getVisitFn v0 (kindOf n) false with
        | none =>
          have ih := parEnterGo_keep_mark n k p pa a rest s j2 v m hj2 hm
          simp [parEnterGo, hget, ih.1, ih.2]
        | some f =>
          cases hp : (f s n k p pa a).1 with
          | brk =>
            have ih := parEnterGo_keep_mark n k p pa a rest (f s n k p pa a).2 j2 v m hj2 hm
            simp [parEnterGo, hget, hp, ih.1, ih.2]
          | undef =>
            have ih := parEnterGo_keep_mark n k p pa a rest (f s n k p pa a).2 j2 v m hj2 hm
            simp [parEnterGo, hget, hp, ih.1, ih.2]
          | val v1 =>
            cases v1 with
            | bool b =>
              cases b with
              | false =>
                have ih := parEnterGo_keep_mark n k p pa a rest (f s n k p pa a).2 j2 v m hj2 hm
                simp [parEnterGo, hget, hp, ih.1, ih.2]
              | true => simp [parEnterGo, hget, hp, List.getElem?_map, hj2, List.getElem?_replicate, hlt, hgp]
            | null => simp [parEnterGo, hget, hp, List.getElem?_map, hj2, List.getElem?_replicate, hlt, hgp]
            | undef => simp [parEnterGo, hget, hp, List.getElem?_map, hj2, List.getElem?_replicate, hlt, hgp]
            | str s2 => simp [parEnterGo, hget, hp, List.getElem?_map, hj2, List.getElem?_replicate, hlt, hgp]
            | node k2 f2 => simp [parEnterGo, hget, hp, List.getElem?_map, hj2, List.getElem?_replicate, hlt, hgp]
            | arr l2 => simp [parEnterGo, hget, hp, List.getElem?_map, hj2, List.getElem?_replicate, hlt, hgp]
      | brkMark =>
        have ih := parEnterGo_keep_mark n k p pa a rest s j2 v m hj2 hm
        simp [parEnterGo, ih.1, ih.2]
      | nodeMark nd =>
        have ih := parEnterGo_keep_mark n k p pa a rest s j2 v m hj2 hm
        simp [parEnterGo, ih.1, ih.2]

/-- A BREAK-marked slot of the leave loop keeps its mark and its component
is not invoked. -/
theorem parLeaveGo_brkMark (n : Js) (k : Option Key) (p : Option Js)
    (pa : List Key) (a : List Js) {σ : Type} :
    ∀ (pairs : List (Visitor σ × SkipMark)) (s : σ) (j : Nat) (v : Visitor σ),
      pairs[j]? = some (v, SkipMark.brkMark) →
      (parLeaveGo n k p pa a s pairs).2.2.1[j]? = some SkipMark.brkMark ∧
      (parLeaveGo n k p pa a s pairs).2.2.2[j]? = some false
  | [], s, j, v, hj => by simp at hj
  | (v0, m0) :: rest, s, j, v, hj => by
    cases j with
    | zero =>
      have hj2 : v0 = v ∧ m0 = SkipMark.brkMark := by simpa using hj
      obtain ⟨rfl, hm0⟩ := hj2
      subst hm0
      simp [parLeaveGo]
    | succ j2 =>
      have hj2 : rest[j2]? = some (v, SkipMark.brkMark) := by simpa using hj
      have hlt : j2 < rest.length := by
        by_contra hge
        rw [List.getElem?_eq_none (Nat.le_of_not_lt hge)] at hj2
        exact absurd hj2 (by simp)
      have hg := List.getElem?_eq_getElem hlt
      rw [hj2] at hg
      have hgp := (Option.some_inj.mp hg).symm
      cases m0 with
      | clear =>
        cases hget : getVisitFn v0 (kindOf n) true with
        | none =>
          have ih := parLeaveGo_brkMark n k p pa a rest s j2 v hj2
          simp [parLeaveGo, hget, ih.1, ih.2]
        | some f =>
          cases hp : (f s n k p pa a).1 with
          | brk =>
            have ih := parLeaveGo_brkMark n k p pa a rest (f s n k p pa a).2 j2 v hj2
            simp [parLeaveGo, hget, hp, ih.1, ih.2]
          | undef =>
            have ih := parLeaveGo_brkMark n k p pa a rest (f s n k p pa a).2 j2 v hj2
            simp [parLeaveGo, hget, hp, ih.1, ih.2]
          | val v1 =>
            cases v1 with
            | bool b =>
              cases b with
              | false =>
                have ih := parLeaveGo_brkMark n k p pa a rest (f s n k p pa a).2 j2 v hj2
                simp [parLeaveGo, hget, hp, ih.1, ih.2]
              | true => simp [parLeaveGo, hget, hp, List.getElem?_map, hj2, List.getElem?_replicate, hlt, hgp]
            | null => simp [parLeaveGo, hget, hp, List.getElem?_map, hj2, List.getElem?_replicate, hlt, hgp]
            | undef => simp [parLeaveGo, hget, hp, List.getElem?_map, hj2, List.getElem?_replicate, hlt, hgp]
            | str s2 => simp [parLeaveGo, hget, hp, List.getElem?_map, hj2, List.getElem?_replicate, hlt, hgp]
            | node k2 f2 => simp [parLeaveGo, hget, hp, List.getElem?_map, hj2, List.getElem?_replicate, hlt, hgp]
            | arr l2 => simp [parLeaveGo, hget, hp, List.getElem?_map, hj2, List.getElem?_replicate, hlt, hgp]
      | brkMark =>
        have ih := parLeaveGo_brkMark n k p pa a rest s j2 v hj2
        simp [parLeaveGo, ih.1, ih.2]
      | nodeMark nd =>
        have ih := parLeaveGo_brkMark n k p pa a rest s j2 v hj2
        by_cases hnd : nd = n
        · simp [parLeaveGo, if_pos hnd, ih.1, ih.2]
        · simp [parLeaveGo, if_neg hnd, ih.1, ih.2]

/-- A node-marked slot of the leave loop is not invoked; when no component
short-circuits with a replacement, the mark is cleared exactly when the
remembered node is the node being left. -/
theorem parLeaveGo_nodeMark (n : Js) (k : Option Key) (p : Option Js)
    (pa : List Key) (a : List Js) {σ : Type} :
    ∀ (pairs : List (Visitor σ × SkipMark)) (s : σ) (j : Nat) (v : Visitor σ) (nd : Js),
      (∀ pair ∈ pairs, NoReplaceVisitor pair.1) →
      pairs[j]? = some (v, SkipMark.nodeMark nd) →
      (parLeaveGo n k p pa a s pairs).2.2.1[j]?
        = some (if nd = n then SkipMark.clear else SkipMark.nodeMark nd) ∧
      (parLeaveGo n k p pa a s pairs).2.2.2[j]? = some false
  | [], s, j, v, nd, hnr, hj => by simp at hj
  | (v0, m0) :: rest, s, j, v, nd, hnr, hj => by
    have hnr2 : ∀ pair ∈ rest, NoReplaceVisitor pair.1 :=
      fun pair hp2 => hnr pair (List.mem_cons_of_mem _ hp2)
    cases j with
    | zero =>
      have hj2 : v0 = v ∧ m0 = SkipMark.nodeMark nd := by simpa using hj
      obtain ⟨rfl, hm0⟩ := hj2
      subst hm0
      by_cases hnd : nd = n
      · simp [parLeaveGo, if_pos hnd]
      · simp [parLeaveGo, if_neg hnd]
    | succ j2 =>
      have hj2 : rest[j2]? = some (v, SkipMark.nodeMark nd) := by simpa using hj
      cases m0 with
      | clear =>
        cases hget : getVisitFn v0 (kindOf n) true with
        | none =>
          have ih := parLeaveGo_nodeMark n k p pa a rest s j2 v nd hnr2 hj2
          simp [parLeaveGo, hget, ih.1, ih.2]
        | some f =>
          have hf3 := hnr (v0, SkipMark.clear) (List.mem_cons_self _ _)
            (kindOf n) true f hget s n k p pa a
          cases hp : (f s n k p pa a).1 with
          | brk =>
            have ih := parLeaveGo_nodeMark n k p pa a rest (f s n k p pa a).2 j2 v nd hnr2 hj2
            simp [parLeaveGo, hget, hp, ih.1, ih.2]
          | undef =>
            have ih := parLeaveGo_nodeMark n k p pa a rest (f s n k p pa a).2 j2 v nd hnr2 hj2
            simp [parLeaveGo, hget, hp, ih.1, ih.2]
          | val v1 =>
            have hfalse : v1 = Js.bool false := by
              rcases hf3 with h3 | h3 | h3 <;> rw [hp] at h3
              · simp at h3
              · simp at h3
              · simpa using h3
            subst hfalse
            have ih := parLeaveGo_nodeMark n k p pa a rest (f s n k p pa a).2 j2 v nd hnr2 hj2
            simp [parLeaveGo, hget, hp, ih.1, ih.2]
      | brkMark =>
        have ih := parLeaveGo_nodeMark n k p pa a rest s j2 v nd hnr2 hj2
        simp [parLeaveGo, ih.1, ih.2]
      | nodeMark nd2 =>
        have ih := parLeaveGo_nodeMark n k p pa a rest s j2 v nd hnr2 hj2
        by_cases hnd2 : nd2 = n
        · simp [parLeaveGo, if_pos hnd2, ih.1, ih.2]
        · simp [parLeaveGo, if_neg hnd2, ih.1, ih.2]

/-- In the no-replacement regime, a clear slot whose component resolves an
enter handler is invoked by the enter loop. -/
theorem parEnterGo_clear_invoked (n : Js) (k : Option Key) (p : Option Js)
    (pa : List Key) (a : List Js) {σ : Type} :
    ∀ (pairs : List (Visitor σ × SkipMark)) (s : σ) (j : Nat) (v : Visitor σ) (f : Handler σ),
      (∀ pair ∈ pairs, NoReplaceVisitor pair.1) →
      pairs[j]? = some (v, SkipMark.clear) →
      getVisitFn v (kindOf n) false = some f →
      (parEnterGo n k p pa a s pairs).2.2.2[j]? = some true
  | [], s, j, v, f, hnr, hj, hget2 => by simp at hj
  | (v0, m0) :: rest, s, j, v, f, hnr, hj, hget2 => by
    have hnr2 : ∀ pair ∈ rest, NoReplaceVisitor pair.1 :=
      fun pair hp2 => hnr pair (List.mem_cons_of_mem _ hp2)
    cases j with
    | zero =>
      have hj2 : v0 = v ∧ m0 = SkipMark.clear := by simpa using hj
      obtain ⟨rfl, hm0⟩ := hj2
      subst hm0
      cases hp : (f s n k p pa a).1 with
      | brk => simp [parEnterGo, hget2, hp]
      | undef => simp [parEnterGo, hget2, hp]
      | val v1 =>
        have hf3 := hnr (v0, SkipMark.clear) (List.mem_cons_self _ _)
          (kindOf n) false f hget2 s n k p pa a
        have hfalse : v1 = Js.bool false := by
          rcases hf3 with h3 | h3 | h3 <;> rw [hp] at h3
          · simp at h3
          · simp at h3
          · simpa using h3
        subst hfalse
        simp [parEnterGo, hget2, hp]
    | succ j2 =>
      have hj2 : rest[j2]? = some (v, SkipMark.clear) := by simpa using hj
      cases m0 with
      | clear =>
        cases hget : getVisitFn v0 (kindOf n) false with
        | none =>
          have ih := parEnterGo_clear_invoked n k p pa a rest s j2 v f hnr2 hj2 hget2
          simp [parEnterGo, hget, ih]
        | some f0 =>
          have hf3 := hnr (v0, SkipMark.clear) (List.mem_cons_self _ _)
            (kindOf n) false f0 hget s n k p pa a
          cases hp : (f0 s n k p pa a).1 with
          | brk =>
            have ih := parEnterGo_clear_invoked n k p pa a rest (f0 s n k p pa a).2 j2 v f hnr2 hj2 hget2
            simp [parEnterGo, hget, hp, ih]
          | undef =>
            have ih := parEnterGo_clear_invoked n k p pa a rest (f0 s n k p pa a).2 j2 v f hnr2 hj2 hget2
            simp [parEnterGo, hget, hp, ih]
          | val v1 =>
            have hfalse : v1 = Js.bool false := by
              rcases hf3 with h3 | h3 | h3 <;> rw [hp] at h3
              · simp at h3
              · simp at h3
              · simpa using h3
            subst hfalse
            have ih := parEnterGo_clear_invoked n k p pa a rest (f0 s n k p pa a).2 j2 v f hnr2 hj2 hget2
            simp [parEnterGo, hget, hp, ih]
      | brkMark =>
        have ih := parEnterGo_clear_invoked n k p pa a rest s j2 v f hnr2 hj2 hget2
        simp [parEnterGo, ih]
      | nodeMark nd =>
        have ih := parEnterGo_clear_invoked n k p pa a rest s j2 v f hnr2 hj2 hget2
        simp [parEnterGo, ih]

/-- In the no-replacement regime, a clear slot whose component resolves a
leave handler is invoked by the leave loop. -/
theorem parLeaveGo_clear_invoked (n : Js) (k : Option Key) (p : Option Js)
    (pa : List Key) (a : List Js) {σ : Type} :
    ∀ (pairs : List (Visitor σ × SkipMark)) (s : σ) (j : Nat) (v : Visitor σ) (f : Handler σ),
      (∀ pair ∈ pairs, NoReplaceVisitor pair.1) →
      pairs[j]? = some (v, SkipMark.clear) →
      getVisitFn v (kindOf n) true = some f →
      (parLeaveGo n k p pa a s pairs).2.2.2[j]? = some true
  | [], s, j, v, f, hnr, hj, hget2 => by simp at hj
  | (v0, m0) :: rest, s, j, v, f, hnr, hj, hget2 => by
    have hnr2 : ∀ pair ∈ rest, NoReplaceVisitor pair.1 :=
      fun pair hp2 => hnr pair (List.mem_cons_of_mem _ hp2)
    cases j with
    | zero =>
      have hj2 : v0 = v ∧ m0 = SkipMark.clear := by simpa using hj
      obtain ⟨rfl, hm0⟩ := hj2
      subst hm0
      cases hp : (f s n k p pa a).1 with
      | brk => simp [parLeaveGo, hget2, hp]
      | undef => simp [parLeaveGo, hget2, hp]
      | val v1 =>
        have hf3 := hnr (v0, SkipMark.clear) (List.mem_cons_self _ _)
          (kindOf n) true f hget2 s n k p pa a
        have hfalse : v1 = Js.bool false := by
          rcases hf3 with h3 | h3 | h3 <;> rw [hp] at h3
          · simp at h3
          · simp at h3
          · simpa using h3
        subst hfalse
        simp [parLeaveGo, hget2, hp]
    | succ j2 =>
      have hj2 : rest[j2]? = some (v, SkipMark.clear) := by simpa using hj
      cases m0 with
      | clear =>
        cases hget : getVisitFn v0 (kindOf n) true with
        | none =>
          have ih := parLeaveGo_clear_invoked n k p pa a rest s j2 v f hnr2 hj2 hget2
          simp [parLeaveGo, hget, ih]
        | some f0 =>
          have hf3 := hnr (v0, SkipMark.clear) (List.mem_cons_self _ _)
            (kindOf n) true f0 hget s n k p pa a
          cases hp : (f0 s n k p pa a).1 with
          | brk =>
            have ih := parLeaveGo_clear_invoked n k p pa a rest (f0 s n k p pa a).2 j2 v f hnr2 hj2 hget2
            simp [parLeaveGo, hget, hp, ih]
          | undef =>
            have ih := parLeaveGo_clear_invoked n k p pa a rest (f0 s n k p pa a).2 j2 v f hnr2 hj2 hget2
            simp [parLeaveGo, hget, hp, ih]
          | val v1 =>
            have hfalse : v1 = Js.bool false := by
              rcases hf3 with h3 | h3 | h3 <;> rw [hp] at h3
              · simp at h3
              · simp at h3
              · simpa using h3
            subst hfalse
            have ih := parLeaveGo_clear_invoked n k p pa a rest (f0 s n k p pa a).2 j2 v f hnr2 hj2 hget2
            simp [parLeaveGo, hget, hp, ih]
      | brkMark =>
        have ih := parLeaveGo_clear_invoked n k p pa a rest s j2 v f hnr2 hj2 hget2
        simp [parLeaveGo, ih]
      | nodeMark nd =>
        have ih := parLeaveGo_clear_invoked n k p pa a rest s j2 v f hnr2 hj2 hget2
        by_cases hnd : nd = n
        · simp [parLeaveGo, if_pos hnd, ih]
        · simp [parLeaveGo, if_neg hnd, ih]

/-- In the no-replacement regime, a clear component whose enter handler
returns false at this node gets marked skipping-until-this-node. -/
theorem parEnterGo_false_sets_nodeMark (n : Js) (k : Option Key) (p : Option Js)
    (pa : List Key) (a : List Js) {σ : Type} :
    ∀ (pairs : List (Visitor σ × SkipMark)) (s : σ) (j : Nat) (v : Visitor σ) (f : Handler σ),
      (∀ pair ∈ pairs, NoReplaceVisitor pair.1) →
      pairs[j]? = some (v, SkipMark.clear) →
      getVisitFn v (kindOf n) false = some f →
      (∀ s2, (f s2 n k p pa a).1 = HResult.val (Js.bool false)) →
      (parEnterGo n k p pa a s pairs).2.2.1[j]? = some (SkipMark.nodeMark n) ∧
      (parEnterGo n k p pa a s pairs).2.2.2[j]? = some true
  | [], s, j, v, f, hnr, hj, hget2, hres => by simp at hj
  | (v0, m0) :: rest, s, j, v, f, hnr, hj, hget2, hres => by
    have hnr2 : ∀ pair ∈ rest, NoReplaceVisitor pair.1 :=
      fun pair hp2 => hnr pair (List.mem_cons_of_mem _ hp2)
    cases j with
    | zero =>
      have hj2 : v0 = v ∧ m0 = SkipMark.clear := by simpa using hj
      obtain ⟨rfl, hm0⟩ := hj2
      subst hm0
      simp [parEnterGo, hget2, hres s]
    | succ j2 =>
      have hj2 : rest[j2]? = some (v, SkipMark.clear) := by simpa using hj
      cases m0 with
      | clear =>
        cases hget : getVisitFn v0 (kindOf n) false with
        | none =>
          have ih := parEnterGo_false_sets_nodeMark n k p pa a rest s j2 v f hnr2 hj2 hget2 hres
          simp [parEnterGo, hget, ih.1, ih.2]
        | some f0 =>
          have hf3 := hnr (v0, SkipMark.clear) (List.mem_cons_self _ _)
            (kindOf n) false f0 hget s n k p pa a
          cases hp : (f0 s n k p pa a).1 with
          | brk =>
            have ih := parEnterGo_false_sets_nodeMark n k p pa a rest (f0 s n k p pa a).2 j2 v f hnr2 hj2 hget2 hres
            simp [parEnterGo, hget, hp, ih.1, ih.2]
          | undef =>
            have ih := parEnterGo_false_sets_nodeMark n k p pa a rest (f0 s n k p pa a).2 j2 v f hnr2 hj2 hget2 hres
            simp [parEnterGo, hget, hp, ih.1, ih.2]
          | val v1 =>
            have hfalse : v1 = Js.bool false := by
              rcases hf3 with h3 | h3 | h3 <;> rw [hp] at h3
              · simp at h3
              · simp at h3
              · simpa using h3
            subst hfalse
            have ih := parEnterGo_false_sets_nodeMark n k p pa a rest (f0 s n k p pa a).2 j2 v f hnr2 hj2 hget2 hres
            simp [parEnterGo, hget, hp, ih.1, ih.2]
      | brkMark =>
        have ih := parEnterGo_false_sets_nodeMark n k p pa a rest s j2 v f hnr2 hj2 hget2 hres
        simp [parEnterGo, ih.1, ih.2]
      | nodeMark nd =>
        have ih := parEnterGo_false_sets_nodeMark n k p pa a rest s j2 v f hnr2 hj2 hget2 hres
        simp [parEnterGo, ih.1, ih.2]

/-- Claim C5: the combined visitor never itself returns BREAK (so the
overall traversal is never aborted: the machine never reaches a broke
flow under it); a component slot marked by a BREAK stays marked and its
component is not invoked, at enter and at leave; and, in the
no-replacement regime, every clear component with a resolvable handler is
still invoked. -/
theorem visitInParallel_break_component_local {σ : Type} (vs : List (Visitor σ)) :
    NoBrkVisitor (visitInParallel vs) ∧
    (∀ fuel st root key parent path anc edits es,
      (visitPos fuel (visitInParallel vs) st root key parent path anc edits).flow
        ≠ Flow.broke es) ∧
    (∀ (n : Js) (k : Option Key) (p : Option Js) (pa : List Key) (a : List Js)
      (s : σ) (pairs : List (Visitor σ × SkipMark)) (j : Nat) (v : Visitor σ),
      pairs[j]? = some (v, SkipMark.brkMark) →
      (parEnterGo n k p pa a s pairs).2.2.1[j]? = some SkipMark.brkMark ∧
      (parEnterGo n k p pa a s pairs).2.2.2[j]? = some false) ∧
    (∀ (n : Js) (k : Option Key) (p : Option Js) (pa : List Key) (a : List Js)
      (s : σ) (pairs : List (Visitor σ × SkipMark)) (j : Nat) (v : Visitor σ),
      pairs[j]? = some (v, SkipMark.brkMark) →
      (parLeaveGo n k p pa a s pairs).2.2.1[j]? = some SkipMark.brkMark ∧
      (parLeaveGo n k p pa a s pairs).2.2.2[j]? = some false) ∧
    (∀ (n : Js) (k : Option Key) (p : Option Js) (pa : List Key) (a : List Js)
      (s : σ) (pairs : List (Visitor σ × SkipMark)) (j : Nat) (v : Visitor σ) (f : Handler σ),
      (∀ pair ∈ pairs, NoReplaceVisitor pair.1) →
      pairs[j]? = some (v, SkipMark.clear) →
      getVisitFn v (kindOf n) false = some f →
      (parEnterGo n k p pa a s pairs).2.2.2[j]? = some true) := by
  have hnb : NoBrkVisitor (visitInParallel vs) := by
    intro kind isL h hget st n k p pa a
    cases isL with
    | false =>
      simp [getVisitFn, visitInParallel] at hget
      subst hget
      exact parEnterGo_ne_brk n k p pa a (vs.zip st.2) st.1
    | true =>
      simp [getVisitFn, visitInParallel] at hget
      subst hget
      exact parLeaveGo_ne_brk n k p pa a (vs.zip st.2) st.1
  refine ⟨hnb, ?_, ?_, ?_, ?_⟩
  · intro fuel st root key parent path anc edits es
    exact visitPos_noBroke (visitInParallel vs) hnb fuel st root key parent path anc edits es
  · intro n k p pa a s pairs j v hj
    exact parEnterGo_keep_mark n k p pa a pairs s j v SkipMark.brkMark hj (by simp)
  · intro n k p pa a s pairs j v hj
    exact parLeaveGo_brkMark n k p pa a pairs s j v hj
  · intro n k p pa a s pairs j v f hnr hj hget
    exact parEnterGo_clear_invoked n k p pa a pairs s j v f hnr hj hget

/-- A Field-counting enter handler (returns undefined, bumps the state). -/
def countFieldHandler : Handler Nat := fun s _ _ _ _ _ => (HResult.undef, s + 1)

/-- A component counting Field enters through a bare kind function. -/
def parVisCount : Visitor Nat :=
  ⟨fun k => if k = "Field" then some (KindVisitor.fn countFieldHandler) else none,
   none, none⟩

/-- A component counting Field enters and leaves through an enter/leave
object. -/
def parVisObj : Visitor Nat :=
  ⟨fun k => if k = "Field" then
      some (KindVisitor.obj (some countFieldHandler) (some countFieldHandler)) else none,
   none, none⟩

/-- A component whose Field enter returns BREAK. -/
def brkFieldHandler : Handler Nat := fun s _ _ _ _ _ => (HResult.brk, s)

/-- The BREAK-returning component. -/
def parVisBrk : Visitor Nat :=
  ⟨fun k => if k = "Field" then some (KindVisitor.fn brkFieldHandler) else none,
   none, none⟩

/-- A component whose Field enter returns false. -/
def falseFieldHandler : Handler Nat :=
  fun s _ _ _ _ _ => (HResult.val (Js.bool false), s)

/-- The false-returning component. -/
def parVisFalse : Visitor Nat :=
  ⟨fun k => if k = "Field" then some (KindVisitor.fn falseFieldHandler) else none,
   none, none⟩

theorem parVisCount_noReplace : NoReplaceVisitor parVisCount := by
  intro kind isL h hget s n k p pa a
  by_cases hk : kind = "Field"
  · subst hk
    cases isL with
    | true => simp [getVisitFn, parVisCount] at hget
    | false =>
      simp [getVisitFn, parVisCount] at hget
      subst hget
      exact Or.inl rfl
  · simp [getVisitFn, parVisCount, hk] at hget

theorem parVisObj_noReplace : NoReplaceVisitor parVisObj := by
  intro kind isL h hget s n k p pa a
  by_cases hk : kind = "Field"
  · subst hk
    cases isL with
    | true =>
      simp [getVisitFn, parVisObj] at hget
      subst hget
      exact Or.inl rfl
    | false =>
      simp [getVisitFn, parVisObj] at hget
      subst hget
      exact Or.inl rfl
  · simp [getVisitFn, parVisObj, hk] at hget

theorem parVisBrk_noReplace : NoReplaceVisitor parVisBrk := by
  intro kind isL h hget s n k p pa a
  by_cases hk : kind = "Field"
  · subst hk
    cases isL with
    | true => simp [getVisitFn, parVisBrk] at hget
    | false =>
      simp [getVisitFn, parVisBrk] at hget
      subst hget
      exact Or.inr (Or.inl rfl)
  · simp [getVisitFn, parVisBrk, hk] at hget

theorem parVisFalse_noReplace : NoReplaceVisitor parVisFalse := by
  intro kind isL h hget s n k p pa a
  by_cases hk : kind = "Field"
  · subst hk
    cases isL with
    | true => simp [getVisitFn, parVisFalse] at hget
    | false =>
      simp [getVisitFn, parVisFalse] at hget
      subst hget
      exact Or.inr (Or.inr rfl)
  · simp [getVisitFn, parVisFalse, hk] at hget

/-- A concrete Field node for the combinator witnesses. -/
def fieldNodeW : Js := Js.node "Field" [("name", Js.node "Name" [("value", Js.str "x")])]

/-- Witness for C5: under the combined visitor of a BREAK-ing component
and a counting component, a concrete run never aborts; a brk-marked slot
is preserved and suppressed at enter and leave; and the clear counting
component is still invoked. -/
theorem visitInParallel_break_component_local_witness :
    ((visitPos 20 (visitInParallel [parVisBrk, parVisCount])
        (0, [SkipMark.clear, SkipMark.clear]) fieldNodeW none none [] [] []).flow
      ≠ Flow.broke []) ∧
    ((parEnterGo fieldNodeW none none [] [] (0 : Nat)
        [(parVisBrk, SkipMark.brkMark), (parVisCount, SkipMark.clear)]).2.2.1[0]?
      = some SkipMark.brkMark) ∧
    ((parLeaveGo fieldNodeW none none [] [] (0 : Nat)
        [(parVisBrk, SkipMark.brkMark), (parVisCount, SkipMark.clear)]).2.2.2[0]?
      = some false) ∧
    ((parEnterGo fieldNodeW none none [] [] (0 : Nat)
        [(parVisBrk, SkipMark.brkMark), (parVisCount, SkipMark.clear)]).2.2.2[1]?
      = some true) := by
  have h := visitInParallel_break_component_local [parVisBrk, parVisCount]
  refine ⟨h.2.1 20 (0, [SkipMark.clear, SkipMark.clear]) fieldNodeW none none [] [] [] [],
    (h.2.2.1 fieldNodeW none none [] [] 0
      [(parVisBrk, SkipMark.brkMark), (parVisCount, SkipMark.clear)] 0 parVisBrk rfl).1,
    (h.2.2.2.1 fieldNodeW none none [] [] 0
      [(parVisBrk, SkipMark.brkMark), (parVisCount, SkipMark.clear)] 0 parVisBrk rfl).2,
    h.2.2.2.2 fieldNodeW none none [] [] 0
      [(parVisBrk, SkipMark.brkMark), (parVisCount, SkipMark.clear)] 1 parVisCount
      countFieldHandler ?_ rfl rfl⟩
  intro pair hp
  rcases List.mem_cons.mp hp with rfl | hp
  · exact parVisBrk_noReplace
  · have : pair = (parVisCount, SkipMark.clear) := by simpa using hp
    subst this
    exact parVisCount_noReplace

/-- Claim C6: in the no-replacement regime, a component whose enter
handler returns false at a node is marked skipping-until-this-node; while
so marked it is invoked on no call and the mark is kept by enter calls;
the leave loop clears the mark exactly when the remembered node is left
and keeps it otherwise, without invoking the component; and every other
clear component with a resolvable handler is still invoked at enter and at
leave. -/
theorem visitInParallel_false_subtree_local {σ : Type} :
    (∀ (n : Js) (k : Option Key) (p : Option Js) (pa : List Key) (a : List Js)
      (s : σ) (pairs : List (Visitor σ × SkipMark)) (j : Nat) (v : Visitor σ) (f : Handler σ),
      (∀ pair ∈ pairs, NoReplaceVisitor pair.1) →
      pairs[j]? = some (v, SkipMark.clear) →
      getVisitFn v (kindOf n) false = some f →
      (∀ s2, (f s2 n k p pa a).1 = HResult.val (Js.bool false)) →
      (parEnterGo n k p pa a s pairs).2.2.1[j]? = some (SkipMark.nodeMark n)) ∧
    (∀ (n : Js) (k : Option Key) (p : Option Js) (pa : List Key) (a : List Js)
      (s : σ) (pairs : List (Visitor σ × SkipMark)) (j : Nat) (v : Visitor σ) (nd : Js),
      pairs[j]? = some (v, SkipMark.nodeMark nd) →
      (parEnterGo n k p pa a s pairs).2.2.1[j]? = some (SkipMark.nodeMark nd) ∧
      (parEnterGo n k p pa a s pairs).2.2.2[j]? = some false) ∧
    (∀ (n : Js) (k : Option Key) (p : Option Js) (pa : List Key) (a : List Js)
      (s : σ) (pairs : List (Visitor σ × SkipMark)) (j : Nat) (v : Visitor σ) (nd : Js),
      (∀ pair ∈ pairs, NoReplaceVisitor pair.1) →
      pairs[j]? = some (v, SkipMark.nodeMark nd) →
      (parLeaveGo n k p pa a s pairs).2.2.1[j]?
        = some (if nd = n then SkipMark.clear else SkipMark.nodeMark nd) ∧
      (parLeaveGo n k p pa a s pairs).2.2.2[j]? = some false) ∧
    (∀ (n : Js) (k : Option Key) (p : Option Js) (pa : List Key) (a : List Js)
      (s : σ) (pairs : List (Visitor σ × SkipMark)) (j : Nat) (v : Visitor σ) (f : Handler σ),
      (∀ pair ∈ pairs, NoReplaceVisitor pair.1) →
      pairs[j]? = some (v, SkipMark.clear) →
      getVisitFn v (kindOf n) false = some f →
      (parEnterGo n k p pa a s pairs).2.2.2[j]? = some true) ∧
    (∀ (n : Js) (k : Option Key) (p : Option Js) (pa : List Key) (a : List Js)
      (s : σ) (pairs : List (Visitor σ × SkipMark)) (j : Nat) (v : Visitor σ) (f : Handler σ),
      (∀ pair ∈ pairs, NoReplaceVisitor pair.1) →
      pairs[j]? = some (v, SkipMark.clear) →
      getVisitFn v (kindOf n) true = some f →
      (parLeaveGo n k p pa a s pairs).2.2.2[j]? = some true) := by
  refine ⟨?_, ?_, ?_, ?_, ?_⟩
  · intro n k p pa a s pairs j v f hnr hj hget hres
    exact (parEnterGo_false_sets_nodeMark n k p pa a pairs s j v f hnr hj hget hres).1
  · intro n k p pa a s pairs j v nd hj
    exact parEnterGo_keep_mark n k p pa a pairs s j v (SkipMark.nodeMark nd) hj (by simp)
  · intro n k p pa a s pairs j v nd hnr hj
    exact parLeaveGo_nodeMark n k p pa a pairs s j v nd hnr hj
  · intro n k p pa a s pairs j v f hnr hj hget
    exact parEnterGo_clear_invoked n k p pa a pairs s j v f hnr hj hget
  · intro n k p pa a s pairs j v f hnr hj hget
    exact parLeaveGo_clear_invoked n k p pa a pairs s j v f hnr hj hget

/-- Witness for C6 at concrete components: the false-returning component
gets node-marked while the counting component is still invoked; the mark
suppresses the component at enter; leaving the remembered node clears the
mark; and the object-style component is invoked on leave as well. -/
theorem visitInParallel_false_subtree_local_witness :
    ((parEnterGo fieldNodeW none none [] [] (0 : Nat)
        [(parVisFalse, SkipMark.clear), (parVisObj, SkipMark.clear)]).2.2.1[0]?
      = some (SkipMark.nodeMark fieldNodeW)) ∧
    ((parEnterGo fieldNodeW none none [] [] (0 : Nat)
        [(parVisFalse, SkipMark.nodeMark fieldNodeW), (parVisObj, SkipMark.clear)]).2.2.2[0]?
      = some false) ∧
    ((parLeaveGo fieldNodeW none none [] [] (0 : Nat)
        [(parVisFalse, SkipMark.nodeMark fieldNodeW), (parVisObj, SkipMark.clear)]).2.2.1[0]?
      = some (if fieldNodeW = fieldNodeW then SkipMark.clear
          else SkipMark.nodeMark fieldNodeW)) ∧
    ((parEnterGo fieldNodeW none none [] [] (0 : Nat)
        [(parVisFalse, SkipMark.clear), (parVisObj, SkipMark.clear)]).2.2.2[1]?
      = some true) ∧
    ((parLeaveGo fieldNodeW none none [] [] (0 : Nat)
        [(parVisFalse, SkipMark.nodeMark fieldNodeW), (parVisObj, SkipMark.clear)]).2.2.2[1]?
      = some true) := by
  have h := visitInParallel_false_subtree_local (σ := Nat)
  have hnr1 : ∀ pair ∈ [(parVisFalse, SkipMark.clear), (parVisObj, SkipMark.clear)],
      NoReplaceVisitor pair.1 := by
    intro pair hp
    rcases List.mem_cons.mp hp with rfl | hp
    · exact parVisFalse_noReplace
    · have : pair = (parVisObj, SkipMark.clear) := by simpa using hp
      subst this
      exact parVisObj_noReplace
  have hnr2 : ∀ pair ∈ [(parVisFalse, SkipMark.nodeMark fieldNodeW),
      (parVisObj, SkipMark.clear)], NoReplaceVisitor pair.1 := by
    intro pair hp
    rcases List.mem_cons.mp hp with rfl | hp
    · exact parVisFalse_noReplace
    · have : pair = (parVisObj, SkipMark.clear) := by simpa using hp
      subst this
      exact parVisObj_noReplace
  exact ⟨h.1 fieldNodeW none none [] [] 0 _ 0 parVisFalse falseFieldHandler hnr1 rfl rfl
      (fun s2 => rfl),
    (h.2.1 fieldNodeW none none [] [] 0 _ 0 parVisFalse fieldNodeW rfl).2,
    (h.2.2.1 fieldNodeW none none [] [] 0 _ 0 parVisFalse fieldNodeW hnr2 rfl).1,
    h.2.2.2.1 fieldNodeW none none [] [] 0 _ 1 parVisObj countFieldHandler hnr1 rfl rfl,
    h.2.2.2.2 fieldNodeW none none [] [] 0 _ 1 parVisObj countFieldHandler hnr2 rfl rfl⟩

/-- The IntValue node used by the C2 counterexample. -/
def ivN (s : String) : Js := Js.node "IntValue" [("value", Js.str s)]

/-- The C2 counterexample root: a ListValue with two IntValue elements. -/
def cexRoot : Js := Js.node "ListValue" [("values", Js.arr [ivN "1", ivN "2"])]

/-- The C2 counterexample handler: replace the first element on enter,
return BREAK on entering the second. -/
def cexHandler : Handler Unit :=
  fun s n _ _ _ _ => (if n = ivN "1" then HResult.val (ivN "9") else HResult.brk, s)

/-- The C2 counterexample visitor: a bare IntValue enter function. -/
def cexVis : Visitor Unit :=
  ⟨fun k => if k = "IntValue" then some (KindVisitor.fn cexHandler) else none,
   none, none⟩

/-- Counterexample to claim C2 as stated: entering the second element
returns BREAK while the sibling edit of the still-open array frame is
pending; no edit was committed to any already-left ancestor level, so the
claim predicts the original root (and under the loosest reading at most the
root with the sibling replaced), yet visit returns the bare replacement
IntValue node, which is neither. -/
theorem visit_break_cex :
    (visit 10 cexVis () cexRoot).outcome = Outcome.done (ivN "9") ∧
    ivN "9" ≠ cexRoot ∧
    ivN "9" ≠ Js.node "ListValue" [("values", Js.arr [ivN "9", ivN "2"])] := by
  refine ⟨by decide, by decide, by decide⟩

/-- Witness for the amended C2 at the concrete counterexample run: the
BREAK call is last in the trace, and the result is the last edit of the
frame current at the break. -/
theorem visit_break_aborts_witness :
    ([] : List Call) = [] ∧
    (visit 10 cexVis () cexRoot).outcome
      = Outcome.done (finalRoot cexRoot [(some (Sum.inr 0), ivN "9")]) := by
  constructor
  · exact (visit_break_aborts 10 cexVis () cexRoot).1
      [("IntValue", false, HResult.val (ivN "9"))] ("IntValue", false, HResult.brk) []
      (by decide) (by decide)
  · exact (visit_break_aborts 10 cexVis () cexRoot).2
      [(some (Sum.inr 0), ivN "9")] (by decide)

/-- Unfolding of the input-object branch for a non-null value: the
object-like test and then the closed-world key check guard the
declared-field loop. -/
theorem vtl_inputObject_unfold (v : GValue) (fds : List (String × GType × Bool))
    (hn : v ≠ GValue.nullV) (hu : v ≠ GValue.undefV) :
    valueToLiteral v (GType.inputObject fds) =
      if isObjectLike v = true then
        if ((gvKeys v).all fun name => fds.any fun f => decide (f.1 = name)) = true then
          Option.map Lit.objL (vtlFields v fds)
        else none
      else none := by
  cases v with
  | nullV => exact absurd rfl hn
  | undefV => exact absurd rfl hu
  | boolV b => rw [valueToLiteral.eq_def]
  | strV s => rw [valueToLiteral.eq_def]
  | numV n => rw [valueToLiteral.eq_def]
  | listV l => rw [valueToLiteral.eq_def]
  | objV l => rw [valueToLiteral.eq_def]

/-- Unfolding of the input-object branch for an object-like value. -/
theorem vtl_inputObject_objectLike (v : GValue) (fds : List (String × GType × Bool))
    (h : isObjectLike v = true) :
    valueToLiteral v (GType.inputObject fds) =
      if ((gvKeys v).all fun name => fds.any fun f => decide (f.1 = name)) = true then
        Option.map Lit.objL (vtlFields v fds)
      else none := by
  have hn : v ≠ GValue.nullV := by rintro rfl; simp [isObjectLike] at h
  have hu : v ≠ GValue.undefV := by rintro rfl; simp [isObjectLike] at h
  rw [vtl_inputObject_unfold v fds hn hu, if_pos h]

/-- The input-object branch rejects every non-null non-object-like value. -/
theorem vtl_inputObject_notObjectLike (v : GValue) (fds : List (String × GType × Bool))
    (h : isObjectLike v = false) (hn : v ≠ GValue.nullV) (hu : v ≠ GValue.undefV) :
    valueToLiteral v (GType.inputObject fds) = none := by
  rw [vtl_inputObject_unfold v fds hn hu, if_neg]
  rw [h]
  simp

/-- The declared-field loop aborts when some declared field is omitted by
the value and required. -/
theorem vtlFields_none_of_required (v : GValue) :
    ∀ (fds : List (String × GType × Bool)) (f : String × GType × Bool), f ∈ fds →
      gvGet v f.1 = GValue.undefV → isRequiredInput f.2.1 f.2.2 = true →
      vtlFields v fds = none
  | [], f, hf, _, _ => absurd hf (List.not_mem_nil f)
  | (name, ftype, hasDefault) :: rest, f, hf, hu, hr => by
    rcases List.mem_cons.mp hf with hf | hf
    · subst hf
      simp only [vtlFields]
      rw [if_pos ⟨hu, hr⟩]
    · simp only [vtlFields]
      split
      · rfl
      · cases valueToLiteral (gvGet v name) ftype with
        | none => rfl
        | some l => rw [vtlFields_none_of_required v rest f hf hu hr]; rfl

/-- The declared-field loop aborts when the recursive encoding of some
declared field is absent. -/
theorem vtlFields_none_of_fieldNone (v : GValue) :
    ∀ (fds : List (String × GType × Bool)) (f : String × GType × Bool), f ∈ fds →
      valueToLiteral (gvGet v f.1) f.2.1 = none →
      vtlFields v fds = none
  | [], f, hf, _ => absurd hf (List.not_mem_nil f)
  | (name, ftype, hasDefault) :: rest, f, hf, he => by
    rcases List.mem_cons.mp hf with hf | hf
    · subst hf
      simp only [vtlFields]
      split
      · rfl
      · rw [he]
    · simp only [vtlFields]
      split
      · rfl
      · cases valueToLiteral (gvGet v name) ftype with
        | none => rfl
        | some l => rw [vtlFields_none_of_fieldNone v rest f hf he]; rfl

/-- The declared-field loop emits the fields in declared order. -/
theorem vtlFields_names (v : GValue) :
    ∀ (fds : List (String × GType × Bool)) (ls : List (String × Lit)),
      vtlFields v fds = some ls → ls.map Prod.fst = fds.map Prod.fst
  | [], ls, h => by
    simp only [vtlFields, Option.some_inj] at h
    subst h; rfl
  | (name, ftype, hasDefault) :: rest, ls, h => by
    simp only [vtlFields] at h
    split at h
    · exact absurd h (by simp)
    · cases hv : valueToLiteral (gvGet v name) ftype with
      | none => rw [hv] at h; exact absurd h (by simp)
      | some l =>
        rw [hv] at h
        cases hrest : vtlFields v rest with
        | none => rw [hrest] at h; exact absurd h (by simp)
        | some ls2 =>
          rw [hrest] at h
          have h2 : (name, l) :: ls2 = ls := by simpa using h
          subst h2
          simp [vtlFields_names v rest ls2 hrest]

/-- Claim C7: for an input-object type and a non-null value, valueToLiteral
is absent whenever the value is not object-like, or some of its keys lies
outside the declared field set, or a declared required field (non-null
without default) is omitted, or the recursive encoding of some declared
field is absent; and every successful result is an object literal whose
field names are exactly the declared names in declared order. -/
theorem valueToLiteral_inputObject_cases (v : GValue)
    (fds : List (String × GType × Bool))
    (hn : v ≠ GValue.nullV) (hu : v ≠ GValue.undefV) :
    (isObjectLike v = false → valueToLiteral v (GType.inputObject fds) = none) ∧
    ((∃ k ∈ gvKeys v, ∀ f ∈ fds, f.1 ≠ k) →
      valueToLiteral v (GType.inputObject fds) = none) ∧
    (∀ f ∈ fds, gvGet v f.1 = GValue.undefV → isRequiredInput f.2.1 f.2.2 = true →
      valueToLiteral v (GType.inputObject fds) = none) ∧
    (∀ f ∈ fds, valueToLiteral (gvGet v f.1) f.2.1 = none →
      valueToLiteral v (GType.inputObject fds) = none) ∧
    (∀ r, valueToLiteral v (GType.inputObject fds) = some r →
      ∃ ls, r = Lit.objL ls ∧ ls.map Prod.fst = fds.map Prod.fst) := by
  refine ⟨fun hobj => vtl_inputObject_notObjectLike v fds hobj hn hu, ?_, ?_, ?_, ?_⟩
  · rintro ⟨k, hk, hout⟩
    cases hobj : isObjectLike v with
    | false => exact vtl_inputObject_notObjectLike v fds hobj hn hu
    | true =>
      rw [vtl_inputObject_objectLike v fds hobj, if_neg]
      intro hall
      have := List.all_eq_true.mp hall k hk
      rcases List.any_eq_true.mp this with ⟨f, hf, heq⟩
      exact hout f hf (of_decide_eq_true heq)
  · intro f hf hud hreq
    cases hobj : isObjectLike v with
    | false => exact vtl_inputObject_notObjectLike v fds hobj hn hu
    | true =>
      rw [vtl_inputObject_objectLike v fds hobj]
      split
      · rw [vtlFields_none_of_required v fds f hf hud hreq]; rfl
      · rfl
  · intro f hf he
    cases hobj : isObjectLike v with
    | false => exact vtl_inputObject_notObjectLike v fds hobj hn hu
    | true =>
      rw [vtl_inputObject_objectLike v fds hobj]
      split
      · rw [vtlFields_none_of_fieldNone v fds f hf he]; rfl
      · rfl
  · intro r hr
    cases hobj : isObjectLike v with
    | false => rw [vtl_inputObject_notObjectLike v fds hobj hn hu] at hr; exact absurd hr (by simp)
    | true =>
      rw [vtl_inputObject_objectLike v fds hobj] at hr
      split at hr
      · cases hfl : vtlFields v fds with
        | none => rw [hfl] at hr; exact absurd hr (by simp)
        | some ls =>
          rw [hfl] at hr
          have h2 : Lit.objL ls = r := by simpa using hr
          exact ⟨ls, h2.symm, vtlFields_names v fds ls hfl⟩
      · exact absurd hr (by simp)

/-- Witness for C7: a mapping with a key outside the declared field set is
rejected (the spec example with an unknown field). -/
theorem valueToLiteral_inputObject_cases_witness :
    valueToLiteral (GValue.objV [("extra", GValue.numV (JsNumber.finite "1"))])
        (GType.inputObject [("a", GType.leafType none, false)]) = none :=
  (valueToLiteral_inputObject_cases
      (GValue.objV [("extra", GValue.numV (JsNumber.finite "1"))])
      [("a", GType.leafType none, false)]
      (by simp) (by simp)).2.1
    ⟨"extra", by simp [gvKeys], by simp⟩

/-- Claim C8: the default scalar encoder maps a non-finite number (NaN or
either infinity) to a null literal, and a finite number to its canonical
decimal string, tagged Int exactly when that string matches the
optional-sign no-leading-zero integer pattern and Float otherwise; in
particular 5 encodes to Int 5, 5.5 to Float 5.5, and NaN and the
infinities to null literals. -/
theorem defaultScalar_number_encoding :
    (∀ n : JsNumber, defaultScalarValueToLiteral (GValue.numV n) =
      match n with
      | JsNumber.nan => Lit.nullL
      | JsNumber.posInf => Lit.nullL
      | JsNumber.negInf => Lit.nullL
      | JsNumber.finite s => if isIntegerString s then Lit.intL s else Lit.floatL s) ∧
    defaultScalarValueToLiteral (GValue.numV (JsNumber.finite "5")) = Lit.intL "5" ∧
    defaultScalarValueToLiteral (GValue.numV (JsNumber.finite "5.5")) = Lit.floatL "5.5" ∧
    defaultScalarValueToLiteral (GValue.numV JsNumber.nan) = Lit.nullL ∧
    defaultScalarValueToLiteral (GValue.numV JsNumber.posInf) = Lit.nullL ∧
    defaultScalarValueToLiteral (GValue.numV JsNumber.negInf) = Lit.nullL := by
  refine ⟨fun n => ?_, by decide, by decide, by decide, by decide, by decide⟩
  cases n <;> rfl

/-- Claim C9: getLiteralDefaultValue is a write-once memoization: after any
successful call, every later call on the returned usage, at any type,
returns the identical literal and the identical usage and performs no
conversion. -/
theorem getLiteralDefaultValue_write_once (usage : DefaultValueUsage) (t : GType)
    (l : Lit) (u2 : DefaultValueUsage) (b : Bool)
    (h : getLiteralDefaultValue usage t = some (l, u2, b)) :
    ∀ t2, getLiteralDefaultValue u2 t2 = some (l, u2, false) := by
  intro t2
  obtain ⟨lv, v0, memo⟩ := usage
  cases lv with
  | some l0 =>
    simp only [getLiteralDefaultValue] at h ⊢
    obtain ⟨rfl, rfl, rfl⟩ := by simpa using h
    simp [getLiteralDefaultValue]
  | none =>
    cases memo with
    | some l0 =>
      simp only [getLiteralDefaultValue] at h ⊢
      obtain ⟨rfl, rfl, rfl⟩ := by simpa using h
      simp [getLiteralDefaultValue]
    | none =>
      simp only [getLiteralDefaultValue] at h ⊢
      cases hav : astFromValue v0 t with
      | none => rw [hav] at h; exact absurd h (by simp)
      | some l0 =>
        rw [hav] at h
        obtain ⟨rfl, rfl, rfl⟩ := by simpa using h
        simp [getLiteralDefaultValue]

/-- Witness for C9: a concrete usage whose first conversion is memoized
and returned identically by a second call. -/
theorem getLiteralDefaultValue_write_once_witness :
    getLiteralDefaultValue
        (DefaultValueUsage.mk none (GValue.boolV true) (some (Lit.boolL true)))
        (GType.leafType none)
      = some (Lit.boolL true,
          DefaultValueUsage.mk none (GValue.boolV true) (some (Lit.boolL true)), false) :=
  getLiteralDefaultValue_write_once
    (DefaultValueUsage.mk none (GValue.boolV true) none) (GType.leafType none)
    (Lit.boolL true)
    (DefaultValueUsage.mk none (GValue.boolV true) (some (Lit.boolL true))) true
    (by simp [getLiteralDefaultValue, astFromValue, valueToLiteral,
      defaultScalarValueToLiteral])
    (GType.leafType none)

end GQL
